import Mathlib

/-!
Verification of the Qrack amplitude-engine dispatch layer (`src/qengine/qengine.cpp`).

The file shallowly embeds the bit-mask algorithms of that translation unit:

* the popcount loop and the skip-power list construction of `QEngine::ProbMaskAll`,
* the gap-opening bit expansion loop (enumeration index to permutation index),
* the measurement entry points `ForceM` (single qubit, multi qubit) and `ForceMReg`,
* the gate-layer entry points (`Swap` and friends) as the `Apply2x2` invocation they build.

Machine integers (`bitCapInt`, by default `uint64_t`) are modelled as `Nat`; the
bit positions handled by the claims stay far below the 64-bit width, so none of
the modelled operations can overflow (the one place where unsigned wrap-around
could matter, the `lcv--` after the sampling loop of `ForceM`/`ForceMReg`, is only
reached with `lcv` at least 1 under the hypotheses of the theorems below).
Floating-point amplitudes are modelled exactly: a complex amplitude is a pair of
rationals, and probabilities are rationals.  External collaborators that are not
part of this translation unit (`ProbMask`, `Prob`, `ProbReg`, `ApplyM`, `Apply2x2`,
the uniform sampler `Rand`) are modelled from the specification and marked as such.
-/

namespace Qrack


/-! ## The bit loops of `QEngine::ProbMaskAll` (qengine.cpp:404-449) -/

/-- Reference bit count, by plain binary recursion. -/
def popcount (v : Nat) : Nat :=
  if v = 0 then 0 else (v &&& 1) + popcount (v >>> 1)
termination_by v
decreasing_by
  rename_i h
  rw [Nat.shiftRight_one]
  exact Nat.div_lt_self (Nat.pos_of_ne_zero h) one_lt_two

/-- The first loop of `ProbMaskAll`: counts set bits by repeatedly clearing the
least significant set bit (`v &= v - 1`). -/
def lenLoop (v : Nat) : Nat :=
  if v = 0 then 0 else 1 + lenLoop (v &&& (v - 1))
termination_by v
decreasing_by
  rename_i h
  have h1 : v &&& (v - 1) ≤ v - 1 := Nat.and_le_right
  have h2 : 0 < v := Nat.pos_of_ne_zero h
  omega

/-- The isolated least significant set bit, exactly as the second loop of
`ProbMaskAll` computes it: `power = (v ^ oldV) & oldV` after `v &= v - 1`. -/
def lowPow (v : Nat) : Nat :=
  ((v &&& (v - 1)) ^^^ v) &&& v

/-- The second loop of `ProbMaskAll`: walks the set bits of `v` (the complement
of the mask) from least significant upward, collecting each isolated bit power
that is still below `mask` and stopping at the first one that is not
(the `else` branch sets `v = 0`, ending the loop). -/
def skipLoop (mask : Nat) (v : Nat) : List Nat :=
  if v = 0 then []
  else if lowPow v < mask then lowPow v :: skipLoop mask (v &&& (v - 1)) else []
termination_by v
decreasing_by
  rename_i h _
  have h1 : v &&& (v - 1) ≤ v - 1 := Nat.and_le_right
  have h2 : 0 < v := Nat.pos_of_ne_zero h
  omega

/-- The two's-complement negation `~mask` of a `w`-bit word. -/
def compW (w mask : Nat) : Nat :=
  (2 ^ w - 1) ^^^ mask

/-- The inner expansion loop of `ProbMaskAll` (qengine.cpp:435-446): for each
skip power, split the running index at that bit position, shift the high part
left by one to open a gap, and continue; the final `i |= iHigh` is the
`expandLoop [] i iHigh` case, and the early `break` on `iHigh == 0` is the
`if iHigh2 = 0` branch. -/
def expandLoop : List Nat → Nat → Nat → Nat
  | [], i, iHigh => i ||| iHigh
  | p :: ps, i, iHigh =>
    let iLow := iHigh &&& (p - 1)
    let i2 := i ||| iLow
    let iHigh2 := (iHigh ^^^ iLow) <<< 1
    if iHigh2 = 0 then i2 else expandLoop ps i2 iHigh2

/-- The complete enumeration-to-permutation expansion of `ProbMaskAll` on a
`w`-bit machine: run the expansion loop over the skip-power list built from the
complement of `mask`. -/
def expandPerm (w mask lcv : Nat) : Nat :=
  expandLoop (skipLoop mask (compW w mask)) 0 lcv

/-- Deposit the low bits of `x` into the given list of bit powers, least
significant position first.  This is also literally the winner re-expansion
loop of the multi-qubit `ForceM` (qengine.cpp:129-135) when the list is the
ascending `qPowers` array. -/
def scatterL : List Nat → Nat → Nat
  | [], _ => 0
  | p :: ps, x => (if x &&& 1 = 1 then p else 0) ||| scatterL ps (x >>> 1)

/-- The set-bit powers of `mask`, in ascending order. -/
def maskPowersAsc (mask : Nat) : List Nat :=
  if mask = 0 then []
  else (if mask &&& 1 = 1 then [1] else []) ++
    (maskPowersAsc (mask >>> 1)).map (fun p => 2 * p)
termination_by mask
decreasing_by
  rename_i h
  rw [Nat.shiftRight_one]
  exact Nat.div_lt_self (Nat.pos_of_ne_zero h) one_lt_two

/-- Deposit the low `popcount mask` bits of `x` into the set-bit positions of
`mask`, in ascending order: the reference semantics of the expansion. -/
def scatter (mask x : Nat) : Nat :=
  scatterL (maskPowersAsc mask) x

/-- Extract the bits of `y` sitting at the set-bit positions of `mask` and pack
them into the low bits of the result: the inverse of `scatter`. -/
def gather (mask y : Nat) : Nat :=
  if mask = 0 then 0
  else if mask &&& 1 = 1 then (y &&& 1) ||| 2 * gather (mask >>> 1) (y >>> 1)
  else gather (mask >>> 1) (y >>> 1)
termination_by mask
decreasing_by
  all_goals
    rename_i h _
    rw [Nat.shiftRight_one]
    exact Nat.div_lt_self (Nat.pos_of_ne_zero h) one_lt_two

/-! ## Amplitudes and the probability collaborators (modelled from the spec) -/

/-- Exact complex amplitude: a pair (re, im) of rationals, standing for the
floating `complex` type of the source. -/
abbrev Amp := ℚ × ℚ

def cadd (x y : Amp) : Amp := (x.1 + y.1, x.2 + y.2)

def cmul (x y : Amp) : Amp := (x.1 * y.1 - x.2 * y.2, x.1 * y.2 + x.2 * y.1)

def normSq (x : Amp) : ℚ := x.1 * x.1 + x.2 * x.2

/-- Accumulate a register mask from a list of bit powers, as the
`regMask |= qPowers[i]` loops do. -/
def orList (l : List Nat) : Nat := l.foldl (fun acc p => acc ||| p) 0

/-- Modelled from the spec: `ProbMask(mask, pattern)` is an external collaborator
of this translation unit; per spec 4.5 it sums the squared magnitudes of every
amplitude whose bits under `mask` equal `pattern`.  The engine owns `2 ^ n`
amplitudes. -/
def ProbMask (n mask pattern : Nat) (s : Nat → Amp) : ℚ :=
  ∑ i ∈ Finset.range (2 ^ n), if i &&& mask = pattern then normSq (s i) else 0

/-- Modelled from the spec: `Prob(qubit)` is an external collaborator; it is the
qubit's one-probability, the summed squared magnitude of the amplitudes whose
`qubit` bit is set. -/
def Prob (n qubit : Nat) (s : Nat → Amp) : ℚ :=
  ProbMask n (1 <<< qubit) (1 <<< qubit) s

/-- Modelled from the spec: `ProbReg(start, length, perm)` is an external
collaborator; per spec 4.5 it is the mask probability of the contiguous register
window. -/
def ProbReg (n start length perm : Nat) (s : Nat → Amp) : ℚ :=
  ProbMask n ((2 ^ length - 1) <<< start) (perm <<< start) s

/-- `QEngine::ProbRegAll` (qengine.cpp:396-402): fill the caller's array with
`ProbReg` of every window value. -/
def ProbRegAllL (n start length : Nat) (s : Nat → Amp) : List ℚ :=
  (List.range (2 ^ length)).map (fun lcv => ProbReg n start length lcv s)

/-- `QEngine::ProbMaskAll` (qengine.cpp:404-449): the caller's `probsArray`,
holding `2 ^ length` entries (`length` computed by the first loop), entry `lcv`
being `ProbMask` of the expanded pattern.  `w` is the machine word width of
`bitCapInt` (64 in the default build; the skip-power list, and hence the array,
is the same for every `w` with `mask < 2 ^ w`). -/
def ProbMaskAllL (n w mask : Nat) (s : Nat → Amp) : List ℚ :=
  (List.range (2 ^ lenLoop mask)).map
    (fun lcv => ProbMask n mask (expandPerm w mask lcv) s)

/-! ## Measurement entry points (qengine.cpp:18-144, 452-512) -/

/-- The arguments of the `ApplyM` collapse call an entry point issues: the
collapse mask, the surviving pattern under that mask, and the survival
normalizer.  `ApplyM` itself is an external collaborator; per spec 4.5 it zeroes
the amplitudes inconsistent with the pattern and rescales the survivors by
`phase / sqrt nrmlzr`. -/
structure ApplyMArgs where
  mask : Nat
  pattern : Nat
  nrmlzr : ℚ

/-- Modelled from the spec: the rescale factor `phase / sqrt(nrmlzr)` that the
entry points build for `ApplyM` — the engine's nonunitary reference phase
divided, componentwise, by the real square root of the survival normalizer. -/
noncomputable def nrmFactor (phase : Amp) (nrmlzr : ℚ) : ℝ × ℝ :=
  ((phase.1 : ℝ) / Real.sqrt (nrmlzr : ℝ), (phase.2 : ℝ) / Real.sqrt (nrmlzr : ℝ))

/-- `QEngine::ForceM(qubit, result, doForce)` (qengine.cpp:18-41).
`NormalizeState()` is an external pre-pass on the lazy-normalization flag, so
`s` stands for the state as the measurement logic reads it; `rand` models the
`Rand()` draw.  Returns the boolean outcome together with the `ApplyM`
arguments (the boolean overload of `ApplyM` collapses at `qPower` keeping
pattern `qPower` or `0`). -/
def ForceM1 (n qubit : Nat) (result doForce : Bool) (rand : ℚ) (s : Nat → Amp) :
    Bool × ApplyMArgs :=
  let oneChance := Prob n qubit s
  let res := if doForce then result
    else (decide (rand < oneChance) && decide (0 < oneChance))
  let nrmlzr := if res then oneChance else 1 - oneChance
  (res, ⟨1 <<< qubit, if res then 1 <<< qubit else 0, nrmlzr⟩)

/-- The forced-pattern accumulation of the multi-qubit `ForceM`
(qengine.cpp:85-88): `result |= values[j] ? (1U << bits[j]) : 0U`. -/
def forcedPattern (bits : List Nat) (vs : List Bool) : Nat :=
  (bits.zip vs).foldl (fun acc bv => acc ||| (if bv.2 then 1 <<< bv.1 else 0)) 0

/-- The mutable locals of the cumulative-probability walk
(qengine.cpp:102-120 and 477-501). -/
structure SampSt where
  lcv : Nat
  lowerProb : ℚ
  largestProb : ℚ
  nrmlzr : ℚ
  result : Nat

/-- One iteration of the walk: accumulate the probability and track the
last-seen largest entry. -/
def sampleStep (pa : Nat → ℚ) (st : SampSt) : SampSt :=
  { lcv := st.lcv + 1
    lowerProb := st.lowerProb + pa st.lcv
    largestProb := if st.largestProb ≤ pa st.lcv then pa st.lcv else st.largestProb
    nrmlzr := if st.largestProb ≤ pa st.lcv then pa st.lcv else st.nrmlzr
    result := if st.largestProb ≤ pa st.lcv then st.lcv else st.result }

/-- The `while ((lowerProb < prob) && (lcv < lengthPower))` loop shared by the
multi-qubit `ForceM` and `ForceMReg`. -/
def sampleLoop (pa : Nat → ℚ) (prob : ℚ) (m : Nat) (st : SampSt) : SampSt :=
  if st.lowerProb < prob ∧ st.lcv < m then sampleLoop pa prob m (sampleStep pa st)
  else st
termination_by m - st.lcv
decreasing_by
  rename_i h
  simp only [sampleStep]
  omega

/-- The full selection: run the walk from the initial locals
(`lcv = 0`, `lowerProb = 0`, `largestProb = 0`, `nrmlzr = ONE_R1`,
`result = lengthPower - 1`), then the post-loop
`if (lcv < lengthPower) { lcv--; result = lcv; nrmlzr = probArray[lcv]; }`.
Returns the selected enumeration index and the normalizer. -/
def samplePick (pa : Nat → ℚ) (prob : ℚ) (m : Nat) : Nat × ℚ :=
  let st := sampleLoop pa prob m ⟨0, 0, 0, 1, m - 1⟩
  if st.lcv < m then (st.lcv - 1, pa (st.lcv - 1)) else (st.result, st.nrmlzr)

/-- The winner re-expansion loop of the multi-qubit `ForceM`
(qengine.cpp:129-135): `if ((1U << p) & result) i |= qPowers[p]` over the
positions `p` of the sorted power list, with `p` starting at the given
position. -/
def winnerExpand : List Nat → Nat → Nat → Nat
  | [], _, _ => 0
  | q :: qs, result, p =>
    (if (1 <<< p) &&& result ≠ 0 then q else 0) ||| winnerExpand qs result (p + 1)

/-- The multi-qubit `QEngine::ForceM(bits, length, values)` (qengine.cpp:44-144),
with `length = bits.length`.  The single-bit special case delegates to the
single-qubit path (`M(q)` is, modelled from the spec, the stochastic
`ForceM(q, false, false)`; `M` itself lives outside this translation unit).
The expansion width is taken as `n` (any width above the highest qubit index
gives the same skip powers). -/
def ForceMArr (n : Nat) (bits : List Nat) (values : Option (List Bool))
    (rand : ℚ) (s : Nat → Amp) : Nat × ApplyMArgs :=
  if bits.length = 1 then
    match values with
    | none =>
      let r := ForceM1 n (bits.headD 0) false false rand s
      (if r.1 then 1 <<< bits.headD 0 else 0, r.2)
    | some vs =>
      let r := ForceM1 n (bits.headD 0) (vs.headD false) true rand s
      (if r.1 then 1 <<< bits.headD 0 else 0, r.2)
  else
    let qPowers := bits.map (fun b => 1 <<< b)
    let regMask := orList qPowers
    let lengthPower := 1 <<< bits.length
    match values with
    | some vs =>
      let result := forcedPattern bits vs
      (result, ⟨regMask, result, ProbMask n regMask result s⟩)
    | none =>
      let pa := fun lcv => ProbMask n regMask (expandPerm n regMask lcv) s
      let pick := samplePick pa rand lengthPower
      let result := winnerExpand (List.insertionSort (· ≤ ·) qPowers) pick.1 0
      (result, ⟨regMask, result, pick.2⟩)

/-- `QEngine::ForceMReg(start, length, result, doForce)` (qengine.cpp:452-512).
When `doForce` holds, the probability array is computed but the walk is
skipped, so `result` and the initial `nrmlzr = ONE_R1` reach `ApplyM`
unchanged; the collapse call is at mask `(lengthPower - 1) << start` with
pattern `result << start`, and the register-relative `result` is returned. -/
def ForceMReg (n start length result : Nat) (doForce : Bool) (rand : ℚ)
    (s : Nat → Amp) : Nat × ApplyMArgs :=
  if length = 1 then
    let r := ForceM1 n start (decide (result &&& 1 = 1)) doForce rand s
    (if r.1 then 1 else 0, r.2)
  else
    let lengthPower := 1 <<< length
    let regMask := (lengthPower - 1) <<< start
    let pa := fun lcv => ProbReg n start length lcv s
    let pick := if doForce then (result, (1 : ℚ)) else samplePick pa rand lengthPower
    (pick.1, ⟨regMask, pick.1 <<< start, pick.2⟩)

/-! ## Reference quantities for the sampling walk -/

/-- The cumulative probability (`lowerProb`) after `k` loop iterations. -/
def sumFirst (pa : Nat → ℚ) : Nat → ℚ
  | 0 => 0
  | k + 1 => sumFirst pa k + pa k

/-- One update of the `(largestProb, nrmlzr, result)` triple. -/
def bestStep (pa : Nat → ℚ) (b : ℚ × ℚ × Nat) (j : Nat) : ℚ × ℚ × Nat :=
  if b.1 ≤ pa j then (pa j, pa j, j) else b

/-- The `(largestProb, nrmlzr, result)` triple after walking the first `k`
entries, from the initial values `(0, ONE_R1, lengthPower - 1)`. -/
def bestTriple (pa : Nat → ℚ) (m k : Nat) : ℚ × ℚ × Nat :=
  (List.range k).foldl (bestStep pa) (0, 1, m - 1)

/-- The full loop state after `k` iterations of the walk. -/
def walkSt (pa : Nat → ℚ) (m k : Nat) : SampSt :=
  ⟨k, sumFirst pa k, (bestTriple pa m k).1, (bestTriple pa m k).2.1,
    (bestTriple pa m k).2.2⟩

/-- The register mask the multi-qubit `ForceM` accumulates. -/
def regMaskOf (bits : List Nat) : Nat := orList (bits.map (fun b => 1 <<< b))

/-- The ascending `qPowers` array of the multi-qubit `ForceM`. -/
def qPowersSortedOf (bits : List Nat) : List Nat :=
  List.insertionSort (· ≤ ·) (bits.map (fun b => 1 <<< b))

/-- Entry `lcv` of the probability array the unforced multi-qubit `ForceM`
walks (what `ProbMaskAll` wrote there). -/
def probOf (n : Nat) (bits : List Nat) (s : Nat → Amp) (lcv : Nat) : ℚ :=
  ProbMask n (regMaskOf bits) (expandPerm n (regMaskOf bits) lcv) s

/-- A concrete two-qubit state with outcome probabilities
`1/100, 49/100, 1/4, 1/4`. -/
def cexState : Nat → Amp :=
  fun i => if i = 0 then (1/10, 0) else if i = 1 then (7/10, 0) else (1/2, 0)

/-! ## The gate layer (qengine.cpp:146-394) as the `Apply2x2` call it builds -/

/-- A 2x2 complex matrix in row-major order, as the four-`complex` arrays of
the gate layer. -/
structure Mat2 where
  e00 : Amp
  e01 : Amp
  e10 : Amp
  e11 : Amp

def matMul (A B : Mat2) : Mat2 :=
  ⟨cadd (cmul A.e00 B.e00) (cmul A.e01 B.e10),
   cadd (cmul A.e00 B.e01) (cmul A.e01 B.e11),
   cadd (cmul A.e10 B.e00) (cmul A.e11 B.e10),
   cadd (cmul A.e10 B.e01) (cmul A.e11 B.e11)⟩

def matId : Mat2 := ⟨(1, 0), (0, 0), (0, 0), (1, 0)⟩

/-- `pauliX` as written at qengine.cpp:349-350. -/
def pauliX : Mat2 := ⟨(0, 0), (1, 0), (1, 0), (0, 0)⟩

/-- `sqrtX` as written at qengine.cpp:367-368. -/
def sqrtX : Mat2 := ⟨(1/2, 1/2), (1/2, -1/2), (1/2, -1/2), (1/2, 1/2)⟩

/-- `iSqrtX` as written at qengine.cpp:385-386. -/
def iSqrtX : Mat2 := ⟨(1/2, -1/2), (1/2, 1/2), (1/2, 1/2), (1/2, -1/2)⟩

/-- One `Apply2x2` invocation: the two branch offsets, the matrix, the sorted
participating bit powers and the norm flag.  `Apply2x2` itself is an external
collaborator (spec 4.3). -/
structure GateCall where
  offset1 : Nat
  offset2 : Nat
  mtrx : Mat2
  qPowersSorted : List Nat
  doCalcNorm : Bool

/-- Modelled from the spec: the effect of one `Apply2x2` call (spec 4.2-4.3).
An index whose bits over the participating powers equal `offset1` (resp.
`offset2`) is the "0" (resp. "1") branch of a pair differing only in those
offset bits; the 2x2 matrix combines the pair, and every other index is left
untouched. -/
def apply2x2St (c : GateCall) (s : Nat → Amp) : Nat → Amp :=
  fun x =>
    let m := orList c.qPowersSorted
    if x &&& m = c.offset1 then
      cadd (cmul c.mtrx.e00 (s x)) (cmul c.mtrx.e01 (s ((x ^^^ c.offset1) ||| c.offset2)))
    else if x &&& m = c.offset2 then
      cadd (cmul c.mtrx.e10 (s ((x ^^^ c.offset2) ||| c.offset1))) (cmul c.mtrx.e11 (s x))
    else s x

/-- Run a gate entry point: the early-return no-op leaves the state as is, an
issued call is applied through the (spec-modelled) `Apply2x2`. -/
def runGate (g : Option GateCall) (s : Nat → Amp) : Nat → Amp :=
  match g with
  | none => s
  | some c => apply2x2St c s

/-- `QEngine::ApplySingleBit` (qengine.cpp:146-151). -/
def ApplySingleBit (m : Mat2) (doCalcNorm : Bool) (qubit : Nat) : GateCall :=
  ⟨0, 1 <<< qubit, m, [1 <<< qubit], doCalcNorm⟩

/-- `QEngine::ApplyControlled2x2` (qengine.cpp:305-324). -/
def ApplyControlled2x2 (controls : List Nat) (target : Nat) (m : Mat2)
    (doCalcNorm : Bool) : GateCall :=
  let controlMask := orList (controls.map (fun c => 1 <<< c))
  ⟨controlMask, controlMask ||| (1 <<< target), m,
    List.insertionSort (· ≤ ·) (controls.map (fun c => 1 <<< c) ++ [1 <<< target]),
    doCalcNorm⟩

/-- `QEngine::ApplyAntiControlled2x2` (qengine.cpp:326-340). -/
def ApplyAntiControlled2x2 (controls : List Nat) (target : Nat) (m : Mat2)
    (doCalcNorm : Bool) : GateCall :=
  ⟨0, 1 <<< target, m,
    List.insertionSort (· ≤ ·) (controls.map (fun c => 1 <<< c) ++ [1 <<< target]),
    doCalcNorm⟩

/-- `QEngine::ApplyControlledSingleBit` (qengine.cpp:153-164); the
`UpdateRunningNorm` tail is normalization bookkeeping outside the claim. -/
def ApplyControlledSingleBit (controls : List Nat) (target : Nat) (m : Mat2) :
    GateCall :=
  if controls.length = 0 then ApplySingleBit m true target
  else ApplyControlled2x2 controls target m false

/-- `QEngine::ApplyAntiControlledSingleBit` (qengine.cpp:166-177). -/
def ApplyAntiControlledSingleBit (controls : List Nat) (target : Nat) (m : Mat2) :
    GateCall :=
  if controls.length = 0 then ApplySingleBit m true target
  else ApplyAntiControlled2x2 controls target m false

/-- `QEngine::Swap` (qengine.cpp:343-358). -/
def Swap (q1 q2 : Nat) : Option GateCall :=
  if q1 = q2 then none
  else
    let qPowersSorted := List.insertionSort (· ≤ ·) [1 <<< q1, 1 <<< q2]
    some ⟨qPowersSorted.headD 0, qPowersSorted.getD 1 0, pauliX, qPowersSorted, false⟩

/-- `QEngine::SqrtSwap` (qengine.cpp:361-376). -/
def SqrtSwap (q1 q2 : Nat) : Option GateCall :=
  if q1 = q2 then none
  else
    let qPowersSorted := List.insertionSort (· ≤ ·) [1 <<< q1, 1 <<< q2]
    some ⟨qPowersSorted.headD 0, qPowersSorted.getD 1 0, sqrtX, qPowersSorted, false⟩

/-- `QEngine::ISqrtSwap` (qengine.cpp:379-394). -/
def ISqrtSwap (q1 q2 : Nat) : Option GateCall :=
  if q1 = q2 then none
  else
    let qPowersSorted := List.insertionSort (· ≤ ·) [1 <<< q1, 1 <<< q2]
    some ⟨qPowersSorted.headD 0, qPowersSorted.getD 1 0, iSqrtX, qPowersSorted, false⟩

/-- `QEngine::CSwap` (qengine.cpp:179-199). -/
def CSwap (controls : List Nat) (q1 q2 : Nat) : Option GateCall :=
  if q1 = q2 then none
  else
    let skipMask := orList (controls.map (fun c => 1 <<< c))
    some ⟨skipMask ||| (1 <<< q1), skipMask ||| (1 <<< q2), pauliX,
      List.insertionSort (· ≤ ·) (controls.map (fun c => 1 <<< c) ++ [1 <<< q1, 1 <<< q2]),
      false⟩

/-- `QEngine::AntiCSwap` (qengine.cpp:201-219). -/
def AntiCSwap (controls : List Nat) (q1 q2 : Nat) : Option GateCall :=
  if q1 = q2 then none
  else
    some ⟨1 <<< q1, 1 <<< q2, pauliX,
      List.insertionSort (· ≤ ·) (controls.map (fun c => 1 <<< c) ++ [1 <<< q1, 1 <<< q2]),
      false⟩

/-- `QEngine::CSqrtSwap` (qengine.cpp:221-241). -/
def CSqrtSwap (controls : List Nat) (q1 q2 : Nat) : Option GateCall :=
  if q1 = q2 then none
  else
    let skipMask := orList (controls.map (fun c => 1 <<< c))
    some ⟨skipMask ||| (1 <<< q1), skipMask ||| (1 <<< q2), sqrtX,
      List.insertionSort (· ≤ ·) (controls.map (fun c => 1 <<< c) ++ [1 <<< q1, 1 <<< q2]),
      false⟩

/-- `QEngine::AntiCSqrtSwap` (qengine.cpp:243-261). -/
def AntiCSqrtSwap (controls : List Nat) (q1 q2 : Nat) : Option GateCall :=
  if q1 = q2 then none
  else
    some ⟨1 <<< q1, 1 <<< q2, sqrtX,
      List.insertionSort (· ≤ ·) (controls.map (fun c => 1 <<< c) ++ [1 <<< q1, 1 <<< q2]),
      false⟩

/-- `QEngine::CISqrtSwap` (qengine.cpp:263-283). -/
def CISqrtSwap (controls : List Nat) (q1 q2 : Nat) : Option GateCall :=
  if q1 = q2 then none
  else
    let skipMask := orList (controls.map (fun c => 1 <<< c))
    some ⟨skipMask ||| (1 <<< q1), skipMask ||| (1 <<< q2), iSqrtX,
      List.insertionSort (· ≤ ·) (controls.map (fun c => 1 <<< c) ++ [1 <<< q1, 1 <<< q2]),
      false⟩

/-- `QEngine::AntiCISqrtSwap` (qengine.cpp:285-303). -/
def AntiCISqrtSwap (controls : List Nat) (q1 q2 : Nat) : Option GateCall :=
  if q1 = q2 then none
  else
    some ⟨1 <<< q1, 1 <<< q2, iSqrtX,
      List.insertionSort (· ≤ ·) (controls.map (fun c => 1 <<< c) ++ [1 <<< q1, 1 <<< q2]),
      false⟩

/-! ## Binary decomposition helpers -/

/-- Bit 0 of a binary decomposition. -/
theorem testBit_zero_two_mul_add {b : Nat} (hb : b < 2) (a : Nat) :
    (2 * a + b).testBit 0 = decide (b = 1) := by
  rw [Nat.testBit_zero, decide_eq_decide]
  omega

/-- Higher bits of a binary decomposition. -/
theorem testBit_succ_two_mul_add {b : Nat} (hb : b < 2) (a i : Nat) :
    (2 * a + b).testBit (i + 1) = a.testBit i := by
  have h : (2 * a + b) / 2 = a := by omega
  rw [Nat.testBit_succ, h]

/-- Bitwise AND distributes over the binary decomposition. -/
theorem land_two_mul_add {b d : Nat} (hb : b < 2) (hd : d < 2) (a c : Nat) :
    (2 * a + b) &&& (2 * c + d) = 2 * (a &&& c) + (b &&& d) := by
  have hbd : b &&& d < 2 := lt_of_le_of_lt Nat.and_le_right hd
  apply Nat.eq_of_testBit_eq
  intro i
  cases i with
  | zero =>
    rw [Nat.testBit_and, testBit_zero_two_mul_add hb, testBit_zero_two_mul_add hd,
      testBit_zero_two_mul_add hbd]
    interval_cases b <;> interval_cases d <;> decide
  | succ i =>
    rw [Nat.testBit_and, testBit_succ_two_mul_add hb, testBit_succ_two_mul_add hd,
      testBit_succ_two_mul_add hbd, Nat.testBit_and]

/-- Bitwise OR distributes over the binary decomposition. -/
theorem lor_two_mul_add {b d : Nat} (hb : b < 2) (hd : d < 2) (a c : Nat) :
    (2 * a + b) ||| (2 * c + d) = 2 * (a ||| c) + (b ||| d) := by
  have hbd : b ||| d < 2 := by interval_cases b <;> interval_cases d <;> decide
  apply Nat.eq_of_testBit_eq
  intro i
  cases i with
  | zero =>
    rw [Nat.testBit_or, testBit_zero_two_mul_add hb, testBit_zero_two_mul_add hd,
      testBit_zero_two_mul_add hbd]
    interval_cases b <;> interval_cases d <;> decide
  | succ i =>
    rw [Nat.testBit_or, testBit_succ_two_mul_add hb, testBit_succ_two_mul_add hd,
      testBit_succ_two_mul_add hbd, Nat.testBit_or]

/-- Bitwise XOR distributes over the binary decomposition. -/
theorem xor_two_mul_add {b d : Nat} (hb : b < 2) (hd : d < 2) (a c : Nat) :
    (2 * a + b) ^^^ (2 * c + d) = 2 * (a ^^^ c) + (b ^^^ d) := by
  have hbd : b ^^^ d < 2 := by interval_cases b <;> interval_cases d <;> decide
  apply Nat.eq_of_testBit_eq
  intro i
  cases i with
  | zero =>
    rw [Nat.testBit_xor, testBit_zero_two_mul_add hb, testBit_zero_two_mul_add hd,
      testBit_zero_two_mul_add hbd]
    interval_cases b <;> interval_cases d <;> decide
  | succ i =>
    rw [Nat.testBit_xor, testBit_succ_two_mul_add hb, testBit_succ_two_mul_add hd,
      testBit_succ_two_mul_add hbd, Nat.testBit_xor]

/-- Every natural number splits into its low bit and its upper bits. -/
theorem two_mul_shiftRight_add (x : Nat) : 2 * (x >>> 1) + (x &&& 1) = x := by
  rw [Nat.shiftRight_one, Nat.and_one_is_mod]
  omega

theorem land_one_lt_two (x : Nat) : x &&& 1 < 2 := by
  have := Nat.and_le_right (n := x) (m := 1)
  omega

/-! ## Unfolding and parity lemmas for the loop embeddings -/

theorem popcount_zero : popcount 0 = 0 := by
  simp [popcount]

theorem popcount_two_mul_add {b : Nat} (hb : b < 2) (a : Nat) :
    popcount (2 * a + b) = popcount a + b := by
  by_cases h : 2 * a + b = 0
  · have ha : a = 0 := by omega
    have hb0 : b = 0 := by omega
    subst ha; subst hb0; simp [popcount]
  · rw [popcount, if_neg h]
    have h1 : (2 * a + b) &&& 1 = b := by
      have := land_two_mul_add hb (by omega : (1:Nat) < 2) a 0
      simpa [Nat.and_zero, Nat.and_one_is_mod, Nat.mod_eq_of_lt hb] using this
    have h2 : (2 * a + b) >>> 1 = a := by
      rw [Nat.shiftRight_one]; omega
    rw [h1, h2, Nat.add_comm]

theorem popcount_double (a : Nat) : popcount (2 * a) = popcount a := by
  simpa using popcount_two_mul_add (by omega : (0:Nat) < 2) a

theorem popcount_double_add_one (a : Nat) : popcount (2 * a + 1) = popcount a + 1 :=
  popcount_two_mul_add (by omega : (1:Nat) < 2) a

theorem land_pred_odd (a : Nat) : (2 * a + 1) &&& (2 * a) = 2 * a := by
  have := land_two_mul_add (by omega : (1:Nat) < 2) (by omega : (0:Nat) < 2) a a
  simpa [Nat.and_self] using this

theorem land_pred_even {a : Nat} (ha : 0 < a) :
    (2 * a) &&& (2 * a - 1) = 2 * (a &&& (a - 1)) := by
  have h : 2 * a - 1 = 2 * (a - 1) + 1 := by omega
  rw [h]
  have := land_two_mul_add (by omega : (0:Nat) < 2) (by omega : (1:Nat) < 2) a (a - 1)
  simpa using this

theorem lowPow_odd (a : Nat) : lowPow (2 * a + 1) = 1 := by
  unfold lowPow
  have h1 : 2 * a + 1 - 1 = 2 * a := by omega
  rw [h1, land_pred_odd]
  have h2 : (2 * a) ^^^ (2 * a + 1) = 1 := by
    have := xor_two_mul_add (by omega : (0:Nat) < 2) (by omega : (1:Nat) < 2) a a
    simpa [Nat.xor_self] using this
  rw [h2]
  have := land_two_mul_add (by omega : (1:Nat) < 2) (by omega : (1:Nat) < 2) 0 a
  simpa using this

theorem lowPow_even {a : Nat} (ha : 0 < a) : lowPow (2 * a) = 2 * lowPow a := by
  unfold lowPow
  rw [land_pred_even ha]
  have h2 : (2 * (a &&& (a - 1))) ^^^ (2 * a) = 2 * ((a &&& (a - 1)) ^^^ a) := by
    have := xor_two_mul_add (by omega : (0:Nat) < 2) (by omega : (0:Nat) < 2)
      (a &&& (a - 1)) a
    simpa using this
  rw [h2]
  have := land_two_mul_add (by omega : (0:Nat) < 2) (by omega : (0:Nat) < 2)
    ((a &&& (a - 1)) ^^^ a) a
  simpa using this

theorem lowPow_pos {v : Nat} (hv : 0 < v) : 0 < lowPow v := by
  induction v using Nat.strong_induction_on with
  | _ v ih =>
    have hb : v &&& 1 < 2 := land_one_lt_two v
    have hd : 2 * (v >>> 1) + (v &&& 1) = v := two_mul_shiftRight_add v
    interval_cases h : v &&& 1
    · have ha : 0 < v >>> 1 := by omega
      have := lowPow_even ha
      rw [show v = 2 * (v >>> 1) by omega, this]
      have := ih (v >>> 1) (by omega) ha
      omega
    · rw [show v = 2 * (v >>> 1) + 1 by omega, lowPow_odd]
      omega

/-- The isolated low bit is a set bit of its argument. -/
theorem lowPow_isBit {v : Nat} (hv : 0 < v) :
    ∃ j, lowPow v = 2 ^ j ∧ v.testBit j = true := by
  induction v using Nat.strong_induction_on with
  | _ v ih =>
    have hb : v &&& 1 < 2 := land_one_lt_two v
    have hd : 2 * (v >>> 1) + (v &&& 1) = v := two_mul_shiftRight_add v
    interval_cases h : v &&& 1
    · have ha : 0 < v >>> 1 := by omega
      obtain ⟨j, hj1, hj2⟩ := ih (v >>> 1) (by omega) ha
      refine ⟨j + 1, ?_, ?_⟩
      · rw [show v = 2 * (v >>> 1) by omega, lowPow_even ha, hj1, pow_succ]
        ring
      · rw [show v = 2 * (v >>> 1) by omega]
        have h2 := testBit_succ_two_mul_add (by omega : (0:Nat) < 2) (v >>> 1) j
        rw [Nat.add_zero] at h2
        rw [h2]; exact hj2
    · refine ⟨0, ?_, ?_⟩
      · rw [show v = 2 * (v >>> 1) + 1 by omega, lowPow_odd]; rfl
      · rw [show v = 2 * (v >>> 1) + 1 by omega,
          testBit_zero_two_mul_add (by omega : (1:Nat) < 2)]
        decide

theorem lenLoop_zero : lenLoop 0 = 0 := by
  simp [lenLoop]

theorem lenLoop_succ {v : Nat} (h : v ≠ 0) :
    lenLoop v = 1 + lenLoop (v &&& (v - 1)) := by
  rw [lenLoop, if_neg h]

theorem lenLoop_two_mul (a : Nat) : lenLoop (2 * a) = lenLoop a := by
  induction a using Nat.strong_induction_on with
  | _ a ih =>
    by_cases h : a = 0
    · subst h; simp [lenLoop]
    · have ha : 0 < a := Nat.pos_of_ne_zero h
      have hlt : a &&& (a - 1) < a := by
        have : a &&& (a - 1) ≤ a - 1 := Nat.and_le_right
        omega
      calc lenLoop (2 * a) = 1 + lenLoop (2 * (a &&& (a - 1))) := by
            rw [lenLoop_succ (by omega : 2 * a ≠ 0), land_pred_even ha]
        _ = 1 + lenLoop (a &&& (a - 1)) := by rw [ih (a &&& (a - 1)) hlt]
        _ = lenLoop a := (lenLoop_succ h).symm

theorem lenLoop_eq_popcount (v : Nat) : lenLoop v = popcount v := by
  induction v using Nat.strong_induction_on with
  | _ v ih =>
    by_cases h : v = 0
    · subst h; rw [lenLoop_zero, popcount_zero]
    · have hb : v &&& 1 < 2 := land_one_lt_two v
      have hd : 2 * (v >>> 1) + (v &&& 1) = v := two_mul_shiftRight_add v
      have hlt : v >>> 1 < v := by omega
      interval_cases hp : v &&& 1
      · rw [show v = 2 * (v >>> 1) by omega, lenLoop_two_mul, popcount_double,
          ih (v >>> 1) (by omega)]
      · rw [show v = 2 * (v >>> 1) + 1 by omega]
        rw [lenLoop_succ (by omega : 2 * (v >>> 1) + 1 ≠ 0),
          show 2 * (v >>> 1) + 1 - 1 = 2 * (v >>> 1) by omega, land_pred_odd,
          lenLoop_two_mul, popcount_double_add_one, ih (v >>> 1) (by omega)]
        omega

theorem shiftLeft_one_eq (x : Nat) : x <<< 1 = 2 * x := by
  rw [Nat.shiftLeft_eq, pow_one, Nat.mul_comm]

theorem land_eq_zero_testBit {x y : Nat} (h : x &&& y = 0) {j : Nat}
    (hx : x.testBit j = true) : y.testBit j = false := by
  have := congrArg (fun z => z.testBit j) h
  simp only [Nat.testBit_and, Nat.zero_testBit] at this
  cases hy : y.testBit j
  · rfl
  · rw [hx, hy] at this; exact absurd this (by decide)

/-! ## `skipLoop` characterization -/

theorem skipLoop_zero_v (mask : Nat) : skipLoop mask 0 = [] := by
  simp [skipLoop]

theorem skipLoop_succ {v : Nat} (h : v ≠ 0) (mask : Nat) :
    skipLoop mask v =
      if lowPow v < mask then lowPow v :: skipLoop mask (v &&& (v - 1)) else [] := by
  rw [skipLoop, if_neg h]

theorem skipLoop_mask_zero (v : Nat) : skipLoop 0 v = [] := by
  by_cases h : v = 0
  · subst h; exact skipLoop_zero_v 0
  · rw [skipLoop_succ h, if_neg (Nat.not_lt_zero _)]

theorem skipLoop_mask_one (v : Nat) : skipLoop 1 v = [] := by
  by_cases h : v = 0
  · subst h; exact skipLoop_zero_v 1
  · rw [skipLoop_succ h]
    have := lowPow_pos (Nat.pos_of_ne_zero h)
    rw [if_neg (by omega)]

theorem skipLoop_pos (mask : Nat) : ∀ v, ∀ p ∈ skipLoop mask v, 0 < p := by
  intro v
  induction v using Nat.strong_induction_on with
  | _ v ih =>
    intro p hp
    by_cases h : v = 0
    · subst h; rw [skipLoop_zero_v] at hp; exact absurd hp (List.not_mem_nil p)
    · rw [skipLoop_succ h] at hp
      by_cases hc : lowPow v < mask
      · rw [if_pos hc] at hp
        rcases List.mem_cons.mp hp with h1 | h2
        · subst h1; exact lowPow_pos (Nat.pos_of_ne_zero h)
        · have hlt : v &&& (v - 1) < v := by
            have : v &&& (v - 1) ≤ v - 1 := Nat.and_le_right
            have : 0 < v := Nat.pos_of_ne_zero h
            omega
          exact ih (v &&& (v - 1)) hlt p h2
      · rw [if_neg hc] at hp; exact absurd hp (List.not_mem_nil p)

/-- Doubling both the mask and the complement word doubles the collected
skip powers (even-mask case). -/
theorem skipLoop_double_even (m : Nat) : ∀ v,
    skipLoop (2 * m) (2 * v) = (skipLoop m v).map (fun p => 2 * p) := by
  intro v
  induction v using Nat.strong_induction_on with
  | _ v ih =>
    by_cases h : v = 0
    · subst h; rw [Nat.mul_zero, skipLoop_zero_v, skipLoop_zero_v]; rfl
    · have hv : 0 < v := Nat.pos_of_ne_zero h
      have hlt : v &&& (v - 1) < v := by
        have : v &&& (v - 1) ≤ v - 1 := Nat.and_le_right
        omega
      rw [skipLoop_succ (by omega : 2 * v ≠ 0), skipLoop_succ h, lowPow_even hv,
        land_pred_even hv]
      by_cases hc : lowPow v < m
      · rw [if_pos (by omega : 2 * lowPow v < 2 * m), if_pos hc, ih _ hlt]
        rfl
      · rw [if_neg (by omega : ¬ 2 * lowPow v < 2 * m), if_neg hc]
        rfl

/-- Doubling the complement word against an odd scaled mask also doubles the
collected skip powers, provided the word is disjoint from the halved mask
(which holds for the complement of the mask). -/
theorem skipLoop_double_odd (m : Nat) : ∀ v, v &&& m = 0 →
    skipLoop (2 * m + 1) (2 * v) = (skipLoop m v).map (fun p => 2 * p) := by
  intro v
  induction v using Nat.strong_induction_on with
  | _ v ih =>
    intro hdisj
    by_cases h : v = 0
    · subst h; rw [Nat.mul_zero, skipLoop_zero_v, skipLoop_zero_v]; rfl
    · have hv : 0 < v := Nat.pos_of_ne_zero h
      have hlt : v &&& (v - 1) < v := by
        have : v &&& (v - 1) ≤ v - 1 := Nat.and_le_right
        omega
      have hlm : lowPow v ≠ m := by
        intro he
        obtain ⟨j, hj1, hj2⟩ := lowPow_isBit hv
        have hmj : m.testBit j = true := by
          rw [← he, hj1, Nat.testBit_two_pow]
          simp
        have := land_eq_zero_testBit hdisj hj2
        rw [hmj] at this
        exact absurd this (by decide)
      have hdisj2 : (v &&& (v - 1)) &&& m = 0 := by
        rw [Nat.and_comm v (v - 1), Nat.and_assoc, hdisj, Nat.and_zero]
      rw [skipLoop_succ (by omega : 2 * v ≠ 0), skipLoop_succ h, lowPow_even hv,
        land_pred_even hv]
      by_cases hc : lowPow v < m
      · rw [if_pos (by omega : 2 * lowPow v < 2 * m + 1), if_pos hc, ih _ hlt hdisj2]
        rfl
      · rw [if_neg (by omega : ¬ 2 * lowPow v < 2 * m + 1), if_neg hc]
        rfl

/-! ## `compW` (the machine-word complement) -/

theorem two_pow_succ_sub_one (w : Nat) : 2 ^ (w + 1) - 1 = 2 * (2 ^ w - 1) + 1 := by
  have h1 : 1 ≤ 2 ^ w := Nat.one_le_two_pow
  have h2 : 2 ^ (w + 1) = 2 * 2 ^ w := by rw [pow_succ]; ring
  omega

theorem compW_succ_odd {mask : Nat} (h : mask &&& 1 = 1) (w : Nat) :
    compW (w + 1) mask = 2 * compW w (mask >>> 1) := by
  generalize hm' : mask >>> 1 = m'
  have hm : mask = 2 * m' + 1 := by
    have := two_mul_shiftRight_add mask
    omega
  rw [compW, compW, two_pow_succ_sub_one, hm,
    xor_two_mul_add (by omega : (1:Nat) < 2) (by omega : (1:Nat) < 2),
    Nat.xor_self, Nat.add_zero]

theorem compW_succ_even {mask : Nat} (h : mask &&& 1 = 0) (w : Nat) :
    compW (w + 1) mask = 2 * compW w (mask >>> 1) + 1 := by
  generalize hm' : mask >>> 1 = m'
  have hm : mask = 2 * m' := by
    have := two_mul_shiftRight_add mask
    omega
  rw [compW, compW, two_pow_succ_sub_one, hm]
  have := xor_two_mul_add (by omega : (1:Nat) < 2) (by omega : (0:Nat) < 2)
    (2 ^ w - 1) m'
  simpa using this

theorem compW_land_self {w mask : Nat} (h : mask < 2 ^ w) :
    compW w mask &&& mask = 0 := by
  apply Nat.eq_of_testBit_eq
  intro i
  rw [Nat.zero_testBit, Nat.testBit_and, compW, Nat.testBit_xor,
    Nat.testBit_two_pow_sub_one]
  cases hmi : mask.testBit i
  · simp
  · have hiw : i < w := by
      by_contra hc
      have h1 : 2 ^ w ≤ 2 ^ i := Nat.pow_le_pow_right (by omega) (by omega)
      have h2 : mask.testBit i = false := Nat.testBit_lt_two_pow (by omega)
      rw [h2] at hmi; exact absurd hmi (by decide)
    simp [hiw]

/-! ## `scatterL`, `maskPowersAsc`, `scatter`, `gather` basics -/

theorem scatterL_nil (x : Nat) : scatterL [] x = 0 := rfl

theorem scatterL_cons (p : Nat) (ps : List Nat) (x : Nat) :
    scatterL (p :: ps) x = (if x &&& 1 = 1 then p else 0) ||| scatterL ps (x >>> 1) := rfl

theorem scatterL_zero (ps : List Nat) : scatterL ps 0 = 0 := by
  induction ps with
  | nil => rfl
  | cons p ps ih =>
    rw [scatterL_cons]
    simp [ih]

theorem scatterL_map_two_mul (ps : List Nat) (x : Nat) :
    scatterL (ps.map (fun p => 2 * p)) x = 2 * scatterL ps x := by
  induction ps generalizing x with
  | nil => rfl
  | cons p ps ih =>
    rw [List.map_cons, scatterL_cons, scatterL_cons, ih]
    have h1 : (if x &&& 1 = 1 then 2 * p else 0) = 2 * (if x &&& 1 = 1 then p else 0) := by
      by_cases h : x &&& 1 = 1 <;> simp [h]
    rw [h1]
    have := lor_two_mul_add (by omega : (0:Nat) < 2) (by omega : (0:Nat) < 2)
      (if x &&& 1 = 1 then p else 0) (scatterL ps (x >>> 1))
    simpa using this

theorem maskPowersAsc_zero : maskPowersAsc 0 = [] := by
  simp [maskPowersAsc]

theorem maskPowersAsc_odd {mask : Nat} (h0 : mask ≠ 0) (h : mask &&& 1 = 1) :
    maskPowersAsc mask = 1 :: (maskPowersAsc (mask >>> 1)).map (fun p => 2 * p) := by
  rw [maskPowersAsc, if_neg h0, if_pos h]
  rfl

theorem maskPowersAsc_even {mask : Nat} (h0 : mask ≠ 0) (h : mask &&& 1 = 0) :
    maskPowersAsc mask = (maskPowersAsc (mask >>> 1)).map (fun p => 2 * p) := by
  rw [maskPowersAsc, if_neg h0, if_neg (by omega)]
  rfl

theorem scatter_zero_mask (x : Nat) : scatter 0 x = 0 := by
  rw [scatter, maskPowersAsc_zero, scatterL_nil]

theorem scatter_odd {mask : Nat} (h0 : mask ≠ 0) (h : mask &&& 1 = 1) (x : Nat) :
    scatter mask x = (x &&& 1) ||| 2 * scatter (mask >>> 1) (x >>> 1) := by
  rw [scatter, maskPowersAsc_odd h0 h, scatterL_cons, scatterL_map_two_mul, ← scatter]
  congr 1
  have := land_one_lt_two x
  interval_cases hx : x &&& 1 <;> simp

theorem scatter_even {mask : Nat} (h0 : mask ≠ 0) (h : mask &&& 1 = 0) (x : Nat) :
    scatter mask x = 2 * scatter (mask >>> 1) x := by
  rw [scatter, maskPowersAsc_even h0 h, scatterL_map_two_mul, ← scatter]

theorem gather_zero_mask (y : Nat) : gather 0 y = 0 := by
  simp [gather]

theorem gather_odd {mask : Nat} (h0 : mask ≠ 0) (h : mask &&& 1 = 1) (y : Nat) :
    gather mask y = (y &&& 1) ||| 2 * gather (mask >>> 1) (y >>> 1) := by
  rw [gather, if_neg h0, if_pos h]

theorem gather_even {mask : Nat} (h0 : mask ≠ 0) (h : mask &&& 1 = 0) (y : Nat) :
    gather mask y = gather (mask >>> 1) (y >>> 1) := by
  rw [gather, if_neg h0, if_neg (by omega)]

/-- A low bit ORed below a doubled value is just an addition. -/
theorem lor_small_double {b : Nat} (hb : b < 2) (s : Nat) :
    b ||| 2 * s = 2 * s + b := by
  have := lor_two_mul_add hb (by omega : (0:Nat) < 2) 0 s
  simpa [Nat.or_comm] using this

/-! ## The expansion loop is a doubled copy of itself on doubled skip powers -/

theorem expandLoop_nil (i iHigh : Nat) : expandLoop [] i iHigh = i ||| iHigh := rfl

theorem expandLoop_cons (p : Nat) (ps : List Nat) (i iHigh : Nat) :
    expandLoop (p :: ps) i iHigh =
      if (iHigh ^^^ (iHigh &&& (p - 1))) <<< 1 = 0 then i ||| (iHigh &&& (p - 1))
      else expandLoop ps (i ||| (iHigh &&& (p - 1))) ((iHigh ^^^ (iHigh &&& (p - 1))) <<< 1) :=
  rfl

theorem expandLoop_map_two_mul (ps : List Nat) (hp : ∀ p ∈ ps, 0 < p) :
    ∀ b c i h, b < 2 → c < 2 →
    expandLoop (ps.map (fun p => 2 * p)) (2 * i + b) (2 * h + c) =
      2 * expandLoop ps i h + (b ||| c) := by
  induction ps with
  | nil =>
    intro b c i h hb hc
    rw [List.map_nil, expandLoop_nil, expandLoop_nil]
    exact lor_two_mul_add hb hc i h
  | cons p ps ih =>
    intro b c i h hb hc
    have hp0 : 0 < p := hp p (List.mem_cons_self p ps)
    have hps : ∀ q ∈ ps, 0 < q := fun q hq => hp q (List.mem_cons_of_mem p hq)
    have hbc : b ||| c < 2 := by interval_cases b <;> interval_cases c <;> decide
    have e1 : 2 * p - 1 = 2 * (p - 1) + 1 := by omega
    have e2 : (2 * h + c) &&& (2 * p - 1) = 2 * (h &&& (p - 1)) + c := by
      rw [e1, land_two_mul_add hc (by omega : (1:Nat) < 2)]
      congr 1
      rw [Nat.and_one_is_mod, Nat.mod_eq_of_lt hc]
    have e3 : (2 * i + b) ||| (2 * (h &&& (p - 1)) + c) =
        2 * (i ||| (h &&& (p - 1))) + (b ||| c) :=
      lor_two_mul_add hb hc i (h &&& (p - 1))
    have e4 : (2 * h + c) ^^^ (2 * (h &&& (p - 1)) + c) =
        2 * (h ^^^ (h &&& (p - 1))) := by
      rw [xor_two_mul_add hc hc, Nat.xor_self, Nat.add_zero]
    rw [List.map_cons, expandLoop_cons, expandLoop_cons, e2, e3, e4]
    rw [shiftLeft_one_eq, shiftLeft_one_eq]
    by_cases hz : 2 * (h ^^^ (h &&& (p - 1))) = 0
    · rw [if_pos (by omega), if_pos hz]
    · rw [if_neg (by omega), if_neg hz]
      have := ih hps (b ||| c) 0 (i ||| (h &&& (p - 1))) (2 * (h ^^^ (h &&& (p - 1)))) hbc
        (by omega)
      rw [show (2:Nat) * (2 * (h ^^^ (h &&& (p - 1)))) =
        2 * (2 * (h ^^^ (h &&& (p - 1)))) + 0 by omega]
      rw [this, Nat.or_zero]

/-- Correctness of the `ProbMaskAll` enumeration-to-permutation expansion: on a
word of any width `w` holding `mask`, expanding an enumeration value `lcv`
below `2 ^ popcount mask` through the skip-power list deposits the bits of
`lcv` into the set-bit positions of `mask`, in ascending order. -/
theorem expandPerm_eq_scatter : ∀ mask w x, mask < 2 ^ w → x < 2 ^ popcount mask →
    expandPerm w mask x = scatter mask x := by
  intro mask
  induction mask using Nat.strong_induction_on with
  | _ mask ih =>
    intro w x hw hx
    by_cases h0 : mask = 0
    · subst h0
      rw [popcount_zero, pow_zero] at hx
      rw [expandPerm, skipLoop_mask_zero, expandLoop_nil, scatter_zero_mask, Nat.zero_or]
      omega
    by_cases h1 : mask = 1
    · subst h1
      rw [show popcount 1 = 1 by
        rw [show (1:Nat) = 2 * 0 + 1 by omega, popcount_double_add_one, popcount_zero]]
        at hx
      rw [expandPerm, skipLoop_mask_one, expandLoop_nil, Nat.zero_or]
      rw [scatter_odd (by omega) (by decide), show (1:Nat) >>> 1 = 0 by decide,
        scatter_zero_mask, Nat.mul_zero, Nat.or_zero, Nat.and_one_is_mod]
      omega
    -- mask ≥ 2
    have hm2 : 2 ≤ mask := by omega
    cases w with
    | zero => rw [pow_zero] at hw; omega
    | succ w' =>
      have hb : mask &&& 1 < 2 := land_one_lt_two mask
      have hdec : 2 * (mask >>> 1) + (mask &&& 1) = mask := two_mul_shiftRight_add mask
      have hshift : mask >>> 1 = mask >>> 1 := rfl
      generalize hm'eq : mask >>> 1 = m' at hdec
      have hm'pos : 0 < m' := by omega
      have hm'lt : m' < mask := by omega
      have hpow : 2 ^ (w' + 1) = 2 * 2 ^ w' := by rw [pow_succ]; ring
      have hm'w : m' < 2 ^ w' := by omega
      have hSpos := skipLoop_pos m' (compW w' m')
      interval_cases hpar : mask &&& 1
      · -- even mask: position 0 is a skip position
        have hpc : popcount mask = popcount m' := by
          rw [show mask = 2 * m' by omega, popcount_double]
        have hcomp : compW (w' + 1) mask = 2 * compW w' m' + 1 := by
          rw [compW_succ_even hpar w', hm'eq]
        have hsk0 : skipLoop mask (2 * compW w' m') =
            (skipLoop m' (compW w' m')).map (fun p => 2 * p) := by
          rw [show mask = 2 * m' by omega]
          exact skipLoop_double_even m' (compW w' m')
        have hsk : skipLoop mask (compW (w' + 1) mask) =
            1 :: (skipLoop m' (compW w' m')).map (fun p => 2 * p) := by
          rw [hcomp, skipLoop_succ (by omega),
            show 2 * compW w' m' + 1 - 1 = 2 * compW w' m' by omega,
            land_pred_odd, lowPow_odd, if_pos (by omega : 1 < mask), hsk0]
        rw [expandPerm, hsk, expandLoop_cons, Nat.sub_self, Nat.and_zero, Nat.xor_zero,
          Nat.or_zero, shiftLeft_one_eq]
        by_cases hxz : x = 0
        · rw [if_pos (by omega)]
          subst hxz
          rw [scatter, scatterL_zero]
        · rw [if_neg (by omega)]
          have hD := expandLoop_map_two_mul
            (skipLoop m' (compW w' m')) hSpos 0 0 0 x
            (by omega) (by omega)
          simp only [Nat.mul_zero, Nat.zero_add, Nat.add_zero, Nat.or_zero,
            Nat.zero_or] at hD
          rw [hD, show expandLoop (skipLoop m' (compW w' m')) 0 x =
            expandPerm w' m' x from rfl,
            ih m' hm'lt w' x hm'w (hpc ▸ hx), scatter_even h0 hpar, hm'eq]
      · -- odd mask: position 0 belongs to the mask
        have hpc : popcount mask = popcount m' + 1 := by
          rw [show mask = 2 * m' + 1 by omega, popcount_double_add_one]
        have hcomp : compW (w' + 1) mask = 2 * compW w' m' := by
          rw [compW_succ_odd hpar w', hm'eq]
        have hsk : skipLoop mask (compW (w' + 1) mask) =
            (skipLoop m' (compW w' m')).map (fun p => 2 * p) := by
          rw [hcomp, show mask = 2 * m' + 1 by omega]
          exact skipLoop_double_odd m' (compW w' m') (compW_land_self hm'w)
        rw [expandPerm, hsk]
        have hD := expandLoop_map_two_mul
          (skipLoop m' (compW w' m')) hSpos 0 (x &&& 1) 0 (x >>> 1)
          (by omega) (land_one_lt_two x)
        simp only [Nat.mul_zero, Nat.zero_add, Nat.add_zero, Nat.zero_or] at hD
        rw [two_mul_shiftRight_add] at hD
        have hx' : x >>> 1 < 2 ^ popcount m' := by
          rw [hpc, pow_succ] at hx
          rw [Nat.shiftRight_one]
          omega
        rw [hD, show expandLoop (skipLoop m' (compW w' m')) 0 (x >>> 1) =
          expandPerm w' m' (x >>> 1) from rfl,
          ih m' hm'lt w' (x >>> 1) hm'w hx',
          scatter_odd h0 hpar, hm'eq, lor_small_double (land_one_lt_two x)]

/-! ## `scatter` is a bijection onto the submasks of `mask` -/

theorem land_one_two_mul_add {b : Nat} (hb : b < 2) (a : Nat) :
    (2 * a + b) &&& 1 = b := by
  have := land_two_mul_add hb (by omega : (1:Nat) < 2) a 0
  simpa [Nat.and_zero, Nat.and_one_is_mod, Nat.mod_eq_of_lt hb] using this

theorem shiftRight_one_two_mul_add {b : Nat} (hb : b < 2) (a : Nat) :
    (2 * a + b) >>> 1 = a := by
  rw [Nat.shiftRight_one]; omega

/-- A scattered value only occupies bit positions of the mask. -/
theorem scatter_land_self (mask : Nat) : ∀ x, scatter mask x &&& mask = scatter mask x := by
  induction mask using Nat.strong_induction_on with
  | _ mask ih =>
    intro x
    by_cases h0 : mask = 0
    · subst h0; rw [scatter_zero_mask, Nat.zero_and]
    · have hb : mask &&& 1 < 2 := land_one_lt_two mask
      have hdec : 2 * (mask >>> 1) + (mask &&& 1) = mask := two_mul_shiftRight_add mask
      generalize hm'eq : mask >>> 1 = m' at hdec
      have hm'lt : m' < mask := by omega
      interval_cases hpar : mask &&& 1
      · rw [scatter_even h0 hpar, hm'eq, show mask = 2 * m' by omega]
        have := land_two_mul_add (by omega : (0:Nat) < 2) (by omega : (0:Nat) < 2)
          (scatter m' x) m'
        simp only [Nat.and_zero, Nat.add_zero] at this
        rw [this, ih m' hm'lt x]
      · rw [scatter_odd h0 hpar, hm'eq, lor_small_double (land_one_lt_two x),
          show mask = 2 * m' + 1 by omega,
          land_two_mul_add (land_one_lt_two x) (by omega : (1:Nat) < 2),
          Nat.and_assoc, show (1:Nat) &&& 1 = 1 from rfl, ih m' hm'lt (x >>> 1)]

/-- `gather` is a left inverse of `scatter` on in-range enumeration values. -/
theorem gather_scatter (mask : Nat) : ∀ x, x < 2 ^ popcount mask →
    gather mask (scatter mask x) = x := by
  induction mask using Nat.strong_induction_on with
  | _ mask ih =>
    intro x hx
    by_cases h0 : mask = 0
    · subst h0
      rw [popcount_zero, pow_zero] at hx
      rw [scatter_zero_mask, gather_zero_mask]
      omega
    · have hb : mask &&& 1 < 2 := land_one_lt_two mask
      have hdec : 2 * (mask >>> 1) + (mask &&& 1) = mask := two_mul_shiftRight_add mask
      generalize hm'eq : mask >>> 1 = m' at hdec
      have hm'lt : m' < mask := by omega
      interval_cases hpar : mask &&& 1
      · have hpc : popcount mask = popcount m' := by
          rw [show mask = 2 * m' by omega, popcount_double]
        rw [scatter_even h0 hpar, hm'eq, gather_even h0 hpar, hm'eq]
        rw [show 2 * scatter m' x = 2 * scatter m' x + 0 by omega,
          shiftRight_one_two_mul_add (by omega : (0:Nat) < 2)]
        exact ih m' hm'lt x (hpc ▸ hx)
      · have hpc : popcount mask = popcount m' + 1 := by
          rw [show mask = 2 * m' + 1 by omega, popcount_double_add_one]
        have hx' : x >>> 1 < 2 ^ popcount m' := by
          rw [hpc, pow_succ] at hx
          rw [Nat.shiftRight_one]
          omega
        rw [scatter_odd h0 hpar, hm'eq, lor_small_double (land_one_lt_two x),
          gather_odd h0 hpar, hm'eq,
          land_one_two_mul_add (land_one_lt_two x),
          shiftRight_one_two_mul_add (land_one_lt_two x),
          ih m' hm'lt (x >>> 1) hx',
          lor_small_double (land_one_lt_two x), two_mul_shiftRight_add]

/-- `gather` is a right inverse of `scatter` on submasks of `mask`. -/
theorem scatter_gather (mask : Nat) : ∀ y, y &&& mask = y →
    scatter mask (gather mask y) = y := by
  induction mask using Nat.strong_induction_on with
  | _ mask ih =>
    intro y hy
    by_cases h0 : mask = 0
    · subst h0
      rw [Nat.and_zero] at hy
      rw [scatter_zero_mask]
      omega
    · have hb : mask &&& 1 < 2 := land_one_lt_two mask
      have hdec : 2 * (mask >>> 1) + (mask &&& 1) = mask := two_mul_shiftRight_add mask
      generalize hm'eq : mask >>> 1 = m' at hdec
      have hm'lt : m' < mask := by omega
      obtain ⟨a, b, hab, hblt, hya, hyb⟩ :
          ∃ a b, 2 * a + b = y ∧ b < 2 ∧ y >>> 1 = a ∧ y &&& 1 = b :=
        ⟨y >>> 1, y &&& 1, two_mul_shiftRight_add y, land_one_lt_two y, rfl, rfl⟩
      interval_cases hpar : mask &&& 1
      · -- even mask: y has a zero low bit and its upper part is a submask of m'
        have h1 : y &&& mask = 2 * (a &&& m') + (b &&& 0) := by
          rw [← hab, show mask = 2 * m' + 0 by omega]
          exact land_two_mul_add hblt (by omega : (0:Nat) < 2) a m'
        rw [hy] at h1
        have h2 : b &&& 0 = 0 := Nat.and_zero _
        have h3 : a &&& m' ≤ m' := Nat.and_le_right
        have hsplit : a &&& m' = a ∧ b = 0 := by omega
        rw [gather_even h0 hpar, hm'eq, hya, scatter_even h0 hpar, hm'eq,
          ih m' hm'lt a hsplit.1]
        omega
      · -- odd mask: the low bit of y survives and the upper part is a submask of m'
        have h1 : y &&& mask = 2 * (a &&& m') + (b &&& 1) := by
          rw [← hab, show mask = 2 * m' + 1 by omega]
          exact land_two_mul_add hblt (by omega : (1:Nat) < 2) a m'
        rw [hy] at h1
        have h2 : b &&& 1 = b := by rw [Nat.and_one_is_mod, Nat.mod_eq_of_lt hblt]
        have h3 : a &&& m' ≤ m' := Nat.and_le_right
        have hsplit : a &&& m' = a := by omega
        rw [gather_odd h0 hpar, hm'eq, hya, hyb, lor_small_double hblt,
          scatter_odd h0 hpar, hm'eq,
          land_one_two_mul_add hblt,
          shiftRight_one_two_mul_add hblt,
          ih m' hm'lt a hsplit,
          lor_small_double hblt, hab]

/-- `gather` always lands in the enumeration range. -/
theorem gather_lt (mask : Nat) : ∀ y, gather mask y < 2 ^ popcount mask := by
  induction mask using Nat.strong_induction_on with
  | _ mask ih =>
    intro y
    by_cases h0 : mask = 0
    · subst h0
      rw [gather_zero_mask, popcount_zero, pow_zero]
      omega
    · have hb : mask &&& 1 < 2 := land_one_lt_two mask
      have hdec : 2 * (mask >>> 1) + (mask &&& 1) = mask := two_mul_shiftRight_add mask
      generalize hm'eq : mask >>> 1 = m' at hdec
      have hm'lt : m' < mask := by omega
      interval_cases hpar : mask &&& 1
      · rw [gather_even h0 hpar, hm'eq, show mask = 2 * m' by omega, popcount_double]
        exact ih m' hm'lt (y >>> 1)
      · rw [gather_odd h0 hpar, hm'eq, lor_small_double (land_one_lt_two y),
          show mask = 2 * m' + 1 by omega, popcount_double_add_one, pow_succ]
        have h1 := ih m' hm'lt (y >>> 1)
        have h2 := land_one_lt_two y
        omega

/-- The enumeration-to-pattern map is a bijection from the enumeration range
onto the set of patterns consistent with the mask (the submasks of `mask`). -/
theorem scatter_bijOn (mask : Nat) :
    Set.BijOn (scatter mask) {x | x < 2 ^ popcount mask} {y | y &&& mask = y} := by
  refine ⟨?_, ?_, ?_⟩
  · intro x _
    exact scatter_land_self mask x
  · intro x1 h1 x2 h2 heq
    have := congrArg (gather mask) heq
    rwa [gather_scatter mask x1 h1, gather_scatter mask x2 h2] at this
  · intro y hy
    exact ⟨gather mask y, gather_lt mask y, scatter_gather mask y hy⟩

/-! ## Amplitude arithmetic and gate-layer lemmas -/

theorem cmul_zero_left (z : Amp) : cmul (0, 0) z = (0, 0) := by
  simp [cmul]

theorem cmul_one_left (z : Amp) : cmul (1, 0) z = z := by
  simp [cmul]

theorem cadd_zero_left (z : Amp) : cadd (0, 0) z = z := by
  simp [cadd]

theorem cadd_zero_right (z : Amp) : cadd z (0, 0) = z := by
  simp [cadd]

theorem one_shiftLeft_eq (q : Nat) : 1 <<< q = 2 ^ q := Nat.one_shiftLeft q

theorem orList_pair (u v : Nat) : orList [u, v] = u ||| v := by
  simp [orList, Nat.zero_or]

theorem insertionSort_pair (u v : Nat) :
    List.insertionSort (· ≤ ·) [u, v] = if u ≤ v then [u, v] else [v, u] := by
  by_cases h : u ≤ v <;> simp [List.insertionSort, List.orderedInsert, h]

theorem land_or_pow_left {a b x : Nat} (hab : a ≠ b)
    (hx : x &&& (2 ^ a ||| 2 ^ b) = 2 ^ a) :
    x.testBit a = true ∧ x.testBit b = false := by
  have hba : b ≠ a := Ne.symm hab
  constructor
  · have h1 := congrArg (fun z => z.testBit a) hx
    simpa [Nat.testBit_and, Nat.testBit_or, Nat.testBit_two_pow, hba] using h1
  · have h1 := congrArg (fun z => z.testBit b) hx
    simpa [Nat.testBit_and, Nat.testBit_or, Nat.testBit_two_pow, hab] using h1

/-- The partner index of an `offset1`-branch index under a two-power swap mask:
it sits on the `offset2` branch, and flipping it back returns the original. -/
theorem swap_partner {a b x : Nat} (hab : a ≠ b)
    (hx : x &&& (2 ^ a ||| 2 ^ b) = 2 ^ a) :
    ((x ^^^ 2 ^ a) ||| 2 ^ b) &&& (2 ^ a ||| 2 ^ b) = 2 ^ b ∧
    (((x ^^^ 2 ^ a) ||| 2 ^ b) ^^^ 2 ^ b) ||| 2 ^ a = x := by
  obtain ⟨hxa, hxb⟩ := land_or_pow_left hab hx
  have hba : b ≠ a := Ne.symm hab
  constructor
  · apply Nat.eq_of_testBit_eq
    intro j
    by_cases hja : j = a
    · subst hja
      simp [Nat.testBit_and, Nat.testBit_or, Nat.testBit_xor, Nat.testBit_two_pow,
        hba, hxa]
    · by_cases hjb : j = b
      · subst hjb
        simp [Nat.testBit_and, Nat.testBit_or, Nat.testBit_xor, Nat.testBit_two_pow,
          hab]
      · have ha' : a ≠ j := fun he => hja he.symm
        have hb' : b ≠ j := fun he => hjb he.symm
        simp [Nat.testBit_and, Nat.testBit_or, Nat.testBit_xor, Nat.testBit_two_pow,
          ha', hb']
  · apply Nat.eq_of_testBit_eq
    intro j
    by_cases hja : j = a
    · subst hja
      simp [Nat.testBit_or, Nat.testBit_xor, Nat.testBit_two_pow, hba, hxa]
    · by_cases hjb : j = b
      · subst hjb
        simp [Nat.testBit_or, Nat.testBit_xor, Nat.testBit_two_pow, hab, hxb]
      · have ha' : a ≠ j := fun he => hja he.symm
        have hb' : b ≠ j := fun he => hjb he.symm
        simp [Nat.testBit_or, Nat.testBit_xor, Nat.testBit_two_pow, ha', hb']

theorem two_pow_ne {a b : Nat} (hab : a ≠ b) : (2 : Nat) ^ a ≠ 2 ^ b := by
  intro he
  exact hab (Nat.pow_right_injective (by omega) he)

/-- Pointwise unfolding of the spec-modelled `Apply2x2` action. -/
theorem apply2x2St_eval (c : GateCall) (s : Nat → Amp) (x : Nat) :
    apply2x2St c s x =
      if x &&& orList c.qPowersSorted = c.offset1 then
        cadd (cmul c.mtrx.e00 (s x))
          (cmul c.mtrx.e01 (s ((x ^^^ c.offset1) ||| c.offset2)))
      else if x &&& orList c.qPowersSorted = c.offset2 then
        cadd (cmul c.mtrx.e10 (s ((x ^^^ c.offset2) ||| c.offset1)))
          (cmul c.mtrx.e11 (s x))
      else s x := rfl

/-- Applying the Pauli-X pair call twice restores the state, for any two
distinct bit powers as the branch offsets. -/
theorem applyX_involution (a b : Nat) (hab : a ≠ b) (l : List Nat)
    (hl : orList l = 2 ^ a ||| 2 ^ b) (d : Bool) (s : Nat → Amp) :
    apply2x2St ⟨2 ^ a, 2 ^ b, pauliX, l, d⟩
      (apply2x2St ⟨2 ^ a, 2 ^ b, pauliX, l, d⟩ s) = s := by
  have ht1 : ∀ (u : Nat → Amp) z, z &&& (2 ^ a ||| 2 ^ b) = 2 ^ a →
      apply2x2St ⟨2 ^ a, 2 ^ b, pauliX, l, d⟩ u z = u ((z ^^^ 2 ^ a) ||| 2 ^ b) := by
    intro u z hz
    rw [apply2x2St_eval]
    show (if z &&& orList l = 2 ^ a then _ else _) = _
    rw [hl, if_pos hz]
    show cadd (cmul (0, 0) (u z)) (cmul (1, 0) (u ((z ^^^ 2 ^ a) ||| 2 ^ b))) = _
    rw [cmul_zero_left, cmul_one_left, cadd_zero_left]
  have ht2 : ∀ (u : Nat → Amp) z, z &&& (2 ^ a ||| 2 ^ b) = 2 ^ b →
      apply2x2St ⟨2 ^ a, 2 ^ b, pauliX, l, d⟩ u z = u ((z ^^^ 2 ^ b) ||| 2 ^ a) := by
    intro u z hz
    rw [apply2x2St_eval]
    show (if z &&& orList l = 2 ^ a then _ else _) = _
    rw [hl, if_neg (by rw [hz]; exact Ne.symm (two_pow_ne hab)), if_pos hz]
    show cadd (cmul (1, 0) (u ((z ^^^ 2 ^ b) ||| 2 ^ a))) (cmul (0, 0) (u z)) = _
    rw [cmul_zero_left, cmul_one_left, cadd_zero_right]
  have ht3 : ∀ (u : Nat → Amp) z, z &&& (2 ^ a ||| 2 ^ b) ≠ 2 ^ a →
      z &&& (2 ^ a ||| 2 ^ b) ≠ 2 ^ b →
      apply2x2St ⟨2 ^ a, 2 ^ b, pauliX, l, d⟩ u z = u z := by
    intro u z hz1 hz2
    rw [apply2x2St_eval]
    show (if z &&& orList l = 2 ^ a then _ else _) = _
    rw [hl, if_neg hz1, if_neg hz2]
  funext x
  by_cases h1 : x &&& (2 ^ a ||| 2 ^ b) = 2 ^ a
  · obtain ⟨hp1, hp2⟩ := swap_partner hab h1
    rw [ht1 _ x h1, ht2 _ _ hp1, hp2]
  · by_cases h2 : x &&& (2 ^ a ||| 2 ^ b) = 2 ^ b
    · have h2' : x &&& (2 ^ b ||| 2 ^ a) = 2 ^ b := by rwa [Nat.or_comm]
      obtain ⟨hp1, hp2⟩ := swap_partner (Ne.symm hab) h2'
      have hp1' : ((x ^^^ 2 ^ b) ||| 2 ^ a) &&& (2 ^ a ||| 2 ^ b) = 2 ^ a := by
        rwa [Nat.or_comm (2 ^ b) (2 ^ a)] at hp1
      rw [ht2 _ x h2, ht1 _ _ hp1', hp2]
    · rw [ht3 _ x h1 h2, ht3 _ x h1 h2]

/-- C6: every paired-qubit gate entry point (`Swap`, `SqrtSwap`, `ISqrtSwap`,
`CSwap`, `AntiCSwap`, `CSqrtSwap`, `AntiCSqrtSwap`, `CISqrtSwap`,
`AntiCISqrtSwap`) returns immediately as a no-op when `qubit1 = qubit2`: no
`Apply2x2` call is built (the result is `none`, so neither the mask builder nor
`Apply2x2` runs) and the amplitude state is completely unchanged. -/
theorem paired_gates_equal_qubits_noop (controls : List Nat) (q1 q2 : Nat)
    (h : q1 = q2) (s : Nat → Amp) :
    Swap q1 q2 = none ∧ SqrtSwap q1 q2 = none ∧ ISqrtSwap q1 q2 = none ∧
    CSwap controls q1 q2 = none ∧ AntiCSwap controls q1 q2 = none ∧
    CSqrtSwap controls q1 q2 = none ∧ AntiCSqrtSwap controls q1 q2 = none ∧
    CISqrtSwap controls q1 q2 = none ∧ AntiCISqrtSwap controls q1 q2 = none ∧
    runGate (Swap q1 q2) s = s ∧ runGate (SqrtSwap q1 q2) s = s ∧
    runGate (ISqrtSwap q1 q2) s = s ∧ runGate (CSwap controls q1 q2) s = s ∧
    runGate (AntiCSwap controls q1 q2) s = s ∧
    runGate (CSqrtSwap controls q1 q2) s = s ∧
    runGate (AntiCSqrtSwap controls q1 q2) s = s ∧
    runGate (CISqrtSwap controls q1 q2) s = s ∧
    runGate (AntiCISqrtSwap controls q1 q2) s = s := by
  subst h
  simp [Swap, SqrtSwap, ISqrtSwap, CSwap, AntiCSwap, CSqrtSwap, AntiCSqrtSwap,
    CISqrtSwap, AntiCISqrtSwap, runGate]

/-- Witness for `paired_gates_equal_qubits_noop` at concrete inputs. -/
theorem paired_gates_equal_qubits_noop_witness :
    (0 : Nat) = 0 ∧ Swap 0 0 = none :=
  ⟨rfl, (paired_gates_equal_qubits_noop [1] 0 0 rfl (fun _ => (1, 0))).1⟩

/-- C8: with `controlLen == 0`, both `ApplyControlledSingleBit` and
`ApplyAntiControlledSingleBit` reduce to the uncontrolled single-qubit path
`ApplySingleBit(mtrx, true, target)`, i.e. to the same `Apply2x2` invocation,
whose control mask (`offset1`) is zero. -/
theorem controlled_zero_controls_reduces (target : Nat) (m : Mat2) :
    ApplyControlledSingleBit [] target m = ApplySingleBit m true target ∧
    ApplyAntiControlledSingleBit [] target m = ApplySingleBit m true target ∧
    (ApplySingleBit m true target).offset1 = 0 := by
  refine ⟨?_, ?_, rfl⟩ <;>
    simp [ApplyControlledSingleBit, ApplyAntiControlledSingleBit]

/-- C7: for distinct qubits, `Swap` applied twice restores the amplitude state
exactly; the matrix the entry point feeds to `Apply2x2` is Pauli-X, which is
its own inverse. -/
theorem swap_twice_restores (q1 q2 : Nat) (h : q1 ≠ q2) (s : Nat → Amp) :
    runGate (Swap q1 q2) (runGate (Swap q1 q2) s) = s ∧
    (Swap q1 q2).map GateCall.mtrx = some pauliX ∧
    matMul pauliX pauliX = matId := by
  refine ⟨?_, ?_, ?_⟩
  · rw [Swap, if_neg h]
    simp only [runGate]
    rw [one_shiftLeft_eq, one_shiftLeft_eq, insertionSort_pair]
    rcases le_or_lt ((2:Nat) ^ q1) (2 ^ q2) with hle | hlt
    · rw [if_pos hle]
      simp only [List.headD, List.getD]
      exact applyX_involution q1 q2 h [2 ^ q1, 2 ^ q2] (orList_pair _ _) false s
    · rw [if_neg (by omega)]
      simp only [List.headD, List.getD]
      exact applyX_involution q2 q1 (Ne.symm h) [2 ^ q2, 2 ^ q1] (orList_pair _ _)
        false s
  · rw [Swap, if_neg h]
    rfl
  · show Mat2.mk _ _ _ _ = Mat2.mk _ _ _ _
    simp [matMul, matId, pauliX, cmul, cadd]

/-- Witness for `swap_twice_restores` at concrete inputs. -/
theorem swap_twice_restores_witness :
    (0 : Nat) ≠ 1 ∧
    runGate (Swap 0 1) (runGate (Swap 0 1) (fun _ => ((1:ℚ), (0:ℚ)))) =
      (fun _ => ((1:ℚ), (0:ℚ))) :=
  ⟨by decide, (swap_twice_restores 0 1 (by decide) (fun _ => ((1:ℚ), (0:ℚ)))).1⟩

/-! ## Measurement-path theorems -/

theorem normSq_nonneg (z : Amp) : 0 ≤ normSq z := by
  have h1 : 0 ≤ z.1 * z.1 := mul_self_nonneg z.1
  have h2 : 0 ≤ z.2 * z.2 := mul_self_nonneg z.2
  rw [normSq]
  linarith

theorem ProbMask_nonneg (n mask pattern : Nat) (s : Nat → Amp) :
    0 ≤ ProbMask n mask pattern s := by
  apply Finset.sum_nonneg
  intro i _
  by_cases h : i &&& mask = pattern
  · simp only [h, if_true]
    exact normSq_nonneg (s i)
  · simp [h]

/-- C3: the single-qubit `ForceM`: with `doForce` false the outcome is the
comparison of the uniform draw against the one-probability; with `doForce` true
it is the supplied result; the survival normalizer is the one-probability for a
true outcome and one minus it otherwise; `ApplyM` is invoked at the qubit's bit
power with the rescale factor `phase / sqrt nrmlzr`; the boolean outcome is
returned as the first component. -/
theorem forceM1_spec (n qubit : Nat) (result doForce : Bool) (rand : ℚ)
    (phase : Amp) (s : Nat → Amp) (hrand : 0 ≤ rand) :
    (doForce = false →
      (ForceM1 n qubit result doForce rand s).1 = decide (rand < Prob n qubit s)) ∧
    (doForce = true → (ForceM1 n qubit result doForce rand s).1 = result) ∧
    (ForceM1 n qubit result doForce rand s).2.nrmlzr =
      (if (ForceM1 n qubit result doForce rand s).1 then Prob n qubit s
       else 1 - Prob n qubit s) ∧
    (ForceM1 n qubit result doForce rand s).2.mask = 1 <<< qubit ∧
    (ForceM1 n qubit result doForce rand s).2.pattern =
      (if (ForceM1 n qubit result doForce rand s).1 then 1 <<< qubit else 0) ∧
    nrmFactor phase (ForceM1 n qubit result doForce rand s).2.nrmlzr =
      nrmFactor phase
        (if (ForceM1 n qubit result doForce rand s).1 then Prob n qubit s
         else 1 - Prob n qubit s) := by
  refine ⟨?_, ?_, ?_, ?_, ?_, ?_⟩
  · intro h
    subst h
    by_cases hlt : rand < Prob n qubit s
    · have hpos : 0 < Prob n qubit s := lt_of_le_of_lt hrand hlt
      simp [ForceM1, hlt, hpos]
    · simp [ForceM1, hlt]
  · intro h
    subst h
    rfl
  · rfl
  · rfl
  · rfl
  · rfl

/-- Witness for `forceM1_spec` at concrete inputs. -/
theorem forceM1_spec_witness :
    (0 : ℚ) ≤ 1/2 ∧
    ((false : Bool) = false →
      (ForceM1 1 0 false false (1/2) (fun _ => (1, 0))).1 =
        decide ((1/2 : ℚ) < Prob 1 0 (fun _ => (1, 0)))) :=
  ⟨by norm_num,
    (forceM1_spec 1 0 false false (1/2) (1, 0) (fun _ => (1, 0)) (by norm_num)).1⟩

/-- C10: in the unforced single-qubit `ForceM`, a one-probability of exactly
zero forces the `false` outcome for every random draw (the code requires both
`prob < oneChance` and `oneChance > 0`), so the survival normalizer is exactly
`1 - 0 = 1` and the `phase / sqrt nrmlzr` rescale never divides by zero on the
unforced path. -/
theorem forceM1_zero_prob_safe (n qubit : Nat) (result : Bool) (rand : ℚ)
    (s : Nat → Amp) (h : Prob n qubit s = 0) :
    (ForceM1 n qubit result false rand s).1 = false ∧
    (ForceM1 n qubit result false rand s).2.nrmlzr = 1 ∧
    (ForceM1 n qubit result false rand s).2.nrmlzr ≠ 0 := by
  refine ⟨?_, ?_, ?_⟩ <;> simp [ForceM1, h]

/-- Witness for `forceM1_zero_prob_safe` at concrete inputs: a state with the
qubit definitely zero. -/
theorem forceM1_zero_prob_safe_witness :
    Prob 1 0 (fun i => if i = 0 then ((1 : ℚ), (0 : ℚ)) else (0, 0)) = 0 ∧
    (ForceM1 1 0 false false (1/2)
      (fun i => if i = 0 then ((1 : ℚ), (0 : ℚ)) else (0, 0))).1 = false := by
  have h : Prob 1 0 (fun i => if i = 0 then ((1 : ℚ), (0 : ℚ)) else (0, 0)) = 0 := by
    show (∑ i ∈ Finset.range (2 ^ 1), _) = (0 : ℚ)
    rw [show (2 : Nat) ^ 1 = 2 by norm_num, Finset.sum_range_succ,
      Finset.sum_range_succ, Finset.sum_range_zero]
    norm_num [normSq]
  exact ⟨h,
    (forceM1_zero_prob_safe 1 0 false (1/2)
      (fun i => if i = 0 then ((1 : ℚ), (0 : ℚ)) else (0, 0)) h).1⟩

/-- C2: the multi-qubit `ForceM` with non-null `values` and more than one bit
performs no sampling (the result does not depend on the random draw), returns
the pattern OR-ing `1 << bits[j]` over the true `values[j]`, and hands `ApplyM`
the exact joint probability `ProbMask(regMask, result)` as the normalizer. -/
theorem forceM_values_exact (n : Nat) (bits : List Nat) (vs : List Bool)
    (rand : ℚ) (s : Nat → Amp) (hlen : 1 < bits.length) :
    (ForceMArr n bits (some vs) rand s).1 = forcedPattern bits vs ∧
    (ForceMArr n bits (some vs) rand s).2.nrmlzr =
      ProbMask n (orList (bits.map (fun b => 1 <<< b))) (forcedPattern bits vs) s ∧
    (ForceMArr n bits (some vs) rand s).2.mask =
      orList (bits.map (fun b => 1 <<< b)) ∧
    (ForceMArr n bits (some vs) rand s).2.pattern = forcedPattern bits vs ∧
    (∀ rand2, ForceMArr n bits (some vs) rand2 s = ForceMArr n bits (some vs) rand s) := by
  have hne : ¬ bits.length = 1 := by omega
  refine ⟨?_, ?_, ?_, ?_, ?_⟩ <;> simp [ForceMArr, hne]

/-- Witness for `forceM_values_exact` at concrete inputs. -/
theorem forceM_values_exact_witness :
    1 < [0, 1].length ∧
    (ForceMArr 2 [0, 1] (some [true, false]) 0 (fun _ => (1, 0))).1 =
      forcedPattern [0, 1] [true, false] :=
  ⟨by decide, (forceM_values_exact 2 [0, 1] [true, false] 0 (fun _ => (1, 0))
    (by decide)).1⟩

/-- C9: `ForceMReg` with `doForce` true and more than one bit leaves the
normalizer passed to `ApplyM` at exactly `1` — the rescale factor is
`phase / sqrt 1 = phase`, with no rescaling by the forced outcome's
probability; the collapse is applied at mask `(2^length - 1) << start` with
pattern `result << start`, and the register-relative result is returned. -/
theorem forceMReg_forced_no_rescale (n start length result : Nat) (rand : ℚ)
    (phase : Amp) (s : Nat → Amp) (hlen : 1 < length) :
    (ForceMReg n start length result true rand s).1 = result ∧
    (ForceMReg n start length result true rand s).2.nrmlzr = 1 ∧
    (ForceMReg n start length result true rand s).2.mask =
      (2 ^ length - 1) <<< start ∧
    (ForceMReg n start length result true rand s).2.pattern = result <<< start ∧
    nrmFactor phase (ForceMReg n start length result true rand s).2.nrmlzr =
      ((phase.1 : ℝ), (phase.2 : ℝ)) := by
  have hne : ¬ length = 1 := by omega
  refine ⟨?_, ?_, ?_, ?_, ?_⟩
  · simp [ForceMReg, hne]
  · simp [ForceMReg, hne]
  · simp [ForceMReg, hne, one_shiftLeft_eq]
  · simp [ForceMReg, hne]
  · have h1 : (ForceMReg n start length result true rand s).2.nrmlzr = 1 := by
      simp [ForceMReg, hne]
    rw [h1, nrmFactor]
    norm_num

/-- Witness for `forceMReg_forced_no_rescale` at concrete inputs. -/
theorem forceMReg_forced_no_rescale_witness :
    1 < 2 ∧ (ForceMReg 2 0 2 3 true 0 (fun _ => (1, 0))).1 = 3 := by
  refine ⟨by decide, ?_⟩
  exact (forceMReg_forced_no_rescale 2 0 2 3 0 (1, 0) (fun _ => (1, 0))
    (by decide)).1

/-! ## Characterizing the sampling walk -/

theorem sumFirst_zero (pa : Nat → ℚ) : sumFirst pa 0 = 0 := rfl

theorem sumFirst_succ (pa : Nat → ℚ) (k : Nat) :
    sumFirst pa (k + 1) = sumFirst pa k + pa k := rfl

theorem bestTriple_zero (pa : Nat → ℚ) (m : Nat) :
    bestTriple pa m 0 = (0, 1, m - 1) := rfl

theorem bestTriple_succ (pa : Nat → ℚ) (m k : Nat) :
    bestTriple pa m (k + 1) = bestStep pa (bestTriple pa m k) k := by
  rw [bestTriple, bestTriple, List.range_succ, List.foldl_concat]

theorem walkSt_zero (pa : Nat → ℚ) (m : Nat) : walkSt pa m 0 = ⟨0, 0, 0, 1, m - 1⟩ :=
  rfl

theorem sampleStep_walkSt (pa : Nat → ℚ) (m k : Nat) :
    sampleStep pa (walkSt pa m k) = walkSt pa m (k + 1) := by
  by_cases hc : (bestTriple pa m k).1 ≤ pa k <;>
    simp [sampleStep, walkSt, bestTriple_succ, bestStep, hc, sumFirst_succ]

theorem sampleLoop_cond_true (pa : Nat → ℚ) (prob : ℚ) (m : Nat) (st : SampSt)
    (h : st.lowerProb < prob ∧ st.lcv < m) :
    sampleLoop pa prob m st = sampleLoop pa prob m (sampleStep pa st) := by
  rw [sampleLoop, if_pos h]

theorem sampleLoop_cond_false (pa : Nat → ℚ) (prob : ℚ) (m : Nat) (st : SampSt)
    (h : ¬ (st.lowerProb < prob ∧ st.lcv < m)) :
    sampleLoop pa prob m st = st := by
  rw [sampleLoop, if_neg h]

theorem sampleLoop_upto (pa : Nat → ℚ) (prob : ℚ) (m : Nat) :
    ∀ k, k ≤ m → (∀ j, j < k → sumFirst pa j < prob) →
    sampleLoop pa prob m (walkSt pa m 0) = sampleLoop pa prob m (walkSt pa m k) := by
  intro k
  induction k with
  | zero => intro _ _; rfl
  | succ k ih =>
    intro hk hbelow
    rw [ih (by omega) (fun j hj => hbelow j (by omega)),
      sampleLoop_cond_true pa prob m (walkSt pa m k)
        ⟨hbelow k (by omega), by show k < m; omega⟩,
      sampleStep_walkSt]

/-- If every partial sum checked by the walk stays below the threshold, the
walk runs to completion and the post-loop adjustment is skipped: the selection
is the tracked `(result, nrmlzr)` fallback pair. -/
theorem samplePick_fallback (pa : Nat → ℚ) (prob : ℚ) (m : Nat)
    (hall : ∀ j, j < m → sumFirst pa j < prob) :
    samplePick pa prob m = ((bestTriple pa m m).2.2, (bestTriple pa m m).2.1) := by
  have h1 : sampleLoop pa prob m ⟨0, 0, 0, 1, m - 1⟩ = walkSt pa m m := by
    rw [← walkSt_zero, sampleLoop_upto pa prob m m (le_refl m) hall,
      sampleLoop_cond_false]
    intro hc
    exact absurd hc.2 (lt_irrefl m)
  rw [samplePick, h1, if_neg (show ¬ (walkSt pa m m).lcv < m from lt_irrefl m)]
  rfl

/-- If the cumulative probability first reaches the threshold after entry `k`
and `k` is not the final entry, the walk selects index `k` with normalizer
`probArray[k]`. -/
theorem samplePick_select (pa : Nat → ℚ) (prob : ℚ) (m k : Nat) (hk1 : k + 1 < m)
    (hbelow : ∀ j, j ≤ k → sumFirst pa j < prob)
    (habove : prob ≤ sumFirst pa (k + 1)) :
    samplePick pa prob m = (k, pa k) := by
  have h1 : sampleLoop pa prob m ⟨0, 0, 0, 1, m - 1⟩ = walkSt pa m (k + 1) := by
    rw [← walkSt_zero,
      sampleLoop_upto pa prob m (k + 1) (by omega) (fun j hj => hbelow j (by omega)),
      sampleLoop_cond_false]
    intro hc
    exact absurd hc.1 (not_lt.mpr habove)
  rw [samplePick, h1, if_pos (show (walkSt pa m (k + 1)).lcv < m from hk1)]
  show (k + 1 - 1, pa (k + 1 - 1)) = (k, pa k)
  norm_num

/-- The tracked triple is the last-seen maximum of the walked entries (with the
normalizer kept equal to it), provided the entries are nonnegative. -/
theorem bestTriple_argmax (pa : Nat → ℚ) (m : Nat) :
    ∀ k, 0 < k → (∀ j, j < k → 0 ≤ pa j) →
    (bestTriple pa m k).2.2 < k ∧
    (bestTriple pa m k).1 = pa (bestTriple pa m k).2.2 ∧
    (bestTriple pa m k).2.1 = (bestTriple pa m k).1 ∧
    (∀ j, j < k → pa j ≤ (bestTriple pa m k).1) ∧
    (∀ j, (bestTriple pa m k).2.2 < j → j < k → pa j < (bestTriple pa m k).1) := by
  intro k
  induction k with
  | zero => intro h; omega
  | succ k ih =>
    intro _ hnn
    by_cases hk0 : k = 0
    · subst hk0
      have h0 : (0 : ℚ) ≤ pa 0 := hnn 0 (by omega)
      rw [bestTriple_succ, bestTriple_zero, bestStep, if_pos h0]
      refine ⟨Nat.zero_lt_one, rfl, rfl, ?_, ?_⟩
      · intro j hj
        have hj0 : j = 0 := by omega
        subst hj0
        exact le_refl _
      · intro j hj1 hj2
        have hj1' : 0 < j := hj1
        exact absurd hj2 (by omega)
    · obtain ⟨ih1, ih2, ih3, ih4, ih5⟩ :=
        ih (by omega) (fun j hj => hnn j (by omega))
      rw [bestTriple_succ, bestStep]
      by_cases hc : (bestTriple pa m k).1 ≤ pa k
      · rw [if_pos hc]
        refine ⟨show k < k + 1 by omega, rfl, rfl, ?_, ?_⟩
        · intro j hj
          by_cases hjk : j = k
          · subst hjk; exact le_refl _
          · exact le_trans (ih4 j (by omega)) hc
        · intro j hj1 hj2
          have hj1' : k < j := hj1
          exact absurd hj2 (by omega)
      · rw [if_neg hc]
        refine ⟨show (bestTriple pa m k).2.2 < k + 1 by omega, ih2, ih3, ?_, ?_⟩
        · intro j hj
          by_cases hjk : j = k
          · subst hjk; exact le_of_lt (not_le.mp hc)
          · exact ih4 j (by omega)
        · intro j hj1 hj2
          by_cases hjk : j = k
          · subst hjk; exact not_le.mp hc
          · exact ih5 j hj1 (by omega)

/-- Unfolding of the unforced multi-qubit `ForceM` into the sampling walk,
the winner expansion and the final `ApplyM` arguments. -/
theorem forceMArr_none_eq (n : Nat) (bits : List Nat) (rand : ℚ) (s : Nat → Amp)
    (h : ¬ bits.length = 1) :
    ForceMArr n bits none rand s =
      (winnerExpand (qPowersSortedOf bits)
         (samplePick (probOf n bits s) rand (1 <<< bits.length)).1 0,
       ⟨regMaskOf bits,
        winnerExpand (qPowersSortedOf bits)
          (samplePick (probOf n bits s) rand (1 <<< bits.length)).1 0,
        (samplePick (probOf n bits s) rand (1 <<< bits.length)).2⟩) := by
  rw [ForceMArr, if_neg h]
  rfl

/-- C4 (amended): in the unforced multi-qubit `ForceM`, the cumulative
probability is walked until it exceeds the drawn threshold; when the exceeding
entry is not the final one, that pattern is selected with its own (necessarily
positive) probability as normalizer; when every checked partial sum stays below
the threshold — which includes the case where the threshold is first exceeded
only at the final entry — the selected pattern and normalizer fall back to the
highest-probability entry seen, ties resolved to the last-seen such entry, and
the fallback normalizer is positive whenever any pattern probability is. -/
theorem forceM_sampling_fallback (n : Nat) (bits : List Nat) (rand : ℚ)
    (s : Nat → Amp) (hlen : 1 < bits.length) :
    ForceMArr n bits none rand s =
      (winnerExpand (qPowersSortedOf bits)
         (samplePick (probOf n bits s) rand (1 <<< bits.length)).1 0,
       ⟨regMaskOf bits,
        winnerExpand (qPowersSortedOf bits)
          (samplePick (probOf n bits s) rand (1 <<< bits.length)).1 0,
        (samplePick (probOf n bits s) rand (1 <<< bits.length)).2⟩) ∧
    (∀ k, k + 1 < 1 <<< bits.length →
      (∀ j, j ≤ k → sumFirst (probOf n bits s) j < rand) →
      rand ≤ sumFirst (probOf n bits s) (k + 1) →
      samplePick (probOf n bits s) rand (1 <<< bits.length) =
        (k, probOf n bits s k) ∧ 0 < probOf n bits s k) ∧
    ((∀ j, j < 1 <<< bits.length → sumFirst (probOf n bits s) j < rand) →
      ∃ r, r < 1 <<< bits.length ∧
        samplePick (probOf n bits s) rand (1 <<< bits.length) =
          (r, probOf n bits s r) ∧
        (∀ j, j < 1 <<< bits.length → probOf n bits s j ≤ probOf n bits s r) ∧
        (∀ j, r < j → j < 1 <<< bits.length →
          probOf n bits s j < probOf n bits s r) ∧
        ((∃ j, j < 1 <<< bits.length ∧ 0 < probOf n bits s j) →
          0 < probOf n bits s r)) := by
  refine ⟨forceMArr_none_eq n bits rand s (by omega), ?_, ?_⟩
  · intro k hk hbelow habove
    refine ⟨samplePick_select _ _ _ k hk hbelow habove, ?_⟩
    have h1 := hbelow k (le_refl k)
    have h2 : sumFirst (probOf n bits s) (k + 1) =
        sumFirst (probOf n bits s) k + probOf n bits s k := sumFirst_succ _ _
    linarith
  · intro hall
    have hm : 0 < 1 <<< bits.length := by
      rw [one_shiftLeft_eq]
      have := Nat.one_le_two_pow (n := bits.length)
      omega
    have hnn : ∀ j, j < 1 <<< bits.length → 0 ≤ probOf n bits s j :=
      fun j _ => ProbMask_nonneg _ _ _ _
    obtain ⟨h1, h2, h3, h4, h5⟩ :=
      bestTriple_argmax (probOf n bits s) (1 <<< bits.length) (1 <<< bits.length)
        hm hnn
    refine ⟨(bestTriple (probOf n bits s) (1 <<< bits.length) (1 <<< bits.length)).2.2,
      h1, ?_, ?_, ?_, ?_⟩
    · rw [samplePick_fallback _ _ _ hall, h3, h2]
    · intro j hj
      have := h4 j hj
      rwa [h2] at this
    · intro j hj1 hj2
      have := h5 j hj1 hj2
      rwa [h2] at this
    · rintro ⟨j, hj, hjpos⟩
      have := h4 j hj
      rw [h2] at this
      linarith

/-- Witness for `forceM_sampling_fallback` at concrete inputs. -/
theorem forceM_sampling_fallback_witness :
    1 < [0, 1].length ∧
    ForceMArr 2 [0, 1] none 0 (fun _ => (1, 0)) =
      (winnerExpand (qPowersSortedOf [0, 1])
         (samplePick (probOf 2 [0, 1] (fun _ => (1, 0))) 0 (1 <<< [0, 1].length)).1 0,
       ⟨regMaskOf [0, 1],
        winnerExpand (qPowersSortedOf [0, 1])
          (samplePick (probOf 2 [0, 1] (fun _ => (1, 0))) 0 (1 <<< [0, 1].length)).1 0,
        (samplePick (probOf 2 [0, 1] (fun _ => (1, 0))) 0 (1 <<< [0, 1].length)).2⟩) :=
  ⟨by decide,
    (forceM_sampling_fallback 2 [0, 1] 0 (fun _ => (1, 0)) (by decide)).1⟩

/-- Counterexample to C4 as stated: with amplitudes of probabilities
`1/100, 49/100, 1/4, 1/4` over `bits = [0, 1]` and threshold `9/10`, the
cumulative probability first exceeds the threshold at enumeration index 3
(pattern 3), but because that is the final entry the `lcv < lengthPower`
adjustment is skipped and the code selects the last-seen highest-probability
pattern 1 with normalizer `49/100` instead. -/
theorem forceM_sampling_last_exceed_cex :
    sumFirst (probOf 2 [0, 1] cexState) 3 < 9/10 ∧
    (9 : ℚ)/10 ≤ sumFirst (probOf 2 [0, 1] cexState) 4 ∧
    winnerExpand (qPowersSortedOf [0, 1]) 3 0 = 3 ∧
    (ForceMArr 2 [0, 1] none (9/10) cexState).1 = 1 ∧
    (ForceMArr 2 [0, 1] none (9/10) cexState).2.nrmlzr = 49/100 ∧
    (ForceMArr 2 [0, 1] none (9/10) cexState).1 ≠ 3 := by
  have hexp : ∀ t, expandPerm 2 3 t = t := by
    intro t
    rw [expandPerm, show compW 2 3 = 0 from rfl, skipLoop_zero_v, expandLoop_nil,
      Nat.zero_or]
  have hpm : ∀ t, probOf 2 [0, 1] cexState t = ProbMask 2 3 t cexState := by
    intro t
    rw [probOf, show regMaskOf [0, 1] = 3 from rfl, hexp t]
  have hsum : ∀ t : Nat, ProbMask 2 3 t cexState =
      (if 0 &&& 3 = t then normSq (cexState 0) else 0) +
      (if 1 &&& 3 = t then normSq (cexState 1) else 0) +
      (if 2 &&& 3 = t then normSq (cexState 2) else 0) +
      (if 3 &&& 3 = t then normSq (cexState 3) else 0) := by
    intro t
    rw [ProbMask, show (2 : Nat) ^ 2 = 4 by norm_num, Finset.sum_range_succ,
      Finset.sum_range_succ, Finset.sum_range_succ, Finset.sum_range_succ,
      Finset.sum_range_zero, zero_add]
  have hpa0 : probOf 2 [0, 1] cexState 0 = 1/100 := by
    rw [hpm 0, hsum 0, if_pos (by decide : (0 &&& 3 : Nat) = 0),
      if_neg (by decide : ¬ (1 &&& 3 : Nat) = 0),
      if_neg (by decide : ¬ (2 &&& 3 : Nat) = 0),
      if_neg (by decide : ¬ (3 &&& 3 : Nat) = 0)]
    norm_num [cexState, normSq]
  have hpa1 : probOf 2 [0, 1] cexState 1 = 49/100 := by
    rw [hpm 1, hsum 1, if_neg (by decide : ¬ (0 &&& 3 : Nat) = 1),
      if_pos (by decide : (1 &&& 3 : Nat) = 1),
      if_neg (by decide : ¬ (2 &&& 3 : Nat) = 1),
      if_neg (by decide : ¬ (3 &&& 3 : Nat) = 1)]
    norm_num [cexState, normSq]
  have hpa2 : probOf 2 [0, 1] cexState 2 = 1/4 := by
    rw [hpm 2, hsum 2, if_neg (by decide : ¬ (0 &&& 3 : Nat) = 2),
      if_neg (by decide : ¬ (1 &&& 3 : Nat) = 2),
      if_pos (by decide : (2 &&& 3 : Nat) = 2),
      if_neg (by decide : ¬ (3 &&& 3 : Nat) = 2)]
    norm_num [cexState, normSq]
  have hpa3 : probOf 2 [0, 1] cexState 3 = 1/4 := by
    rw [hpm 3, hsum 3, if_neg (by decide : ¬ (0 &&& 3 : Nat) = 3),
      if_neg (by decide : ¬ (1 &&& 3 : Nat) = 3),
      if_neg (by decide : ¬ (2 &&& 3 : Nat) = 3),
      if_pos (by decide : (3 &&& 3 : Nat) = 3)]
    norm_num [cexState, normSq]
  have hs1 : sumFirst (probOf 2 [0, 1] cexState) 1 = 1/100 := by
    rw [sumFirst_succ, sumFirst_zero, hpa0]
    norm_num
  have hs2 : sumFirst (probOf 2 [0, 1] cexState) 2 = 1/2 := by
    rw [sumFirst_succ, hs1, hpa1]
    norm_num
  have hs3 : sumFirst (probOf 2 [0, 1] cexState) 3 = 3/4 := by
    rw [sumFirst_succ, hs2, hpa2]
    norm_num
  have hs4 : sumFirst (probOf 2 [0, 1] cexState) 4 = 1 := by
    rw [sumFirst_succ, hs3, hpa3]
    norm_num
  have hall : ∀ j, j < 1 <<< [0, 1].length →
      sumFirst (probOf 2 [0, 1] cexState) j < 9/10 := by
    intro j hj
    rw [show (1 <<< [0, 1].length : Nat) = 4 from rfl] at hj
    interval_cases j
    · rw [sumFirst_zero]; norm_num
    · rw [hs1]; norm_num
    · rw [hs2]; norm_num
    · rw [hs3]; norm_num
  have hbt : bestTriple (probOf 2 [0, 1] cexState) 4 4 = (49/100, 49/100, 1) := by
    rw [bestTriple_succ, bestTriple_succ, bestTriple_succ, bestTriple_succ,
      bestTriple_zero]
    simp only [bestStep]
    rw [hpa0, hpa1, hpa2, hpa3]
    norm_num
  have hpick : samplePick (probOf 2 [0, 1] cexState) (9/10) (1 <<< [0, 1].length) =
      (1, 49/100) := by
    rw [samplePick_fallback _ _ _ hall]
    rw [show (1 <<< [0, 1].length : Nat) = 4 from rfl, hbt]
  have hF := forceMArr_none_eq 2 [0, 1] (9/10) cexState (by decide)
  rw [hpick] at hF
  refine ⟨by rw [hs3]; norm_num, by rw [hs4]; norm_num, by decide, ?_, ?_, ?_⟩
  · rw [hF]; decide
  · rw [hF]
  · rw [hF]; decide

/-! ## `ProbMaskAll` claim -/

/-- C1: `ProbMaskAll(mask, probsArray)` fills `probsArray` with exactly
`2 ^ popcount mask` entries; entry `lcv` is `ProbMask(mask, pattern_lcv)` for
the expansion of `lcv` through the skip-power list of the mask's complement;
and that expansion is a bijection from the enumeration range onto the patterns
consistent with `mask` (the submasks of `mask`), so every pattern is computed
exactly once. -/
theorem probMaskAll_fills_bijection (n w mask : Nat) (s : Nat → Amp)
    (hw : mask < 2 ^ w) :
    (ProbMaskAllL n w mask s).length = 2 ^ popcount mask ∧
    (∀ lcv, lcv < 2 ^ popcount mask →
      (ProbMaskAllL n w mask s).getD lcv 0 =
        ProbMask n mask (expandPerm w mask lcv) s) ∧
    Set.BijOn (expandPerm w mask) {lcv | lcv < 2 ^ popcount mask}
      {y | y &&& mask = y} := by
  have hlen : (ProbMaskAllL n w mask s).length = 2 ^ popcount mask := by
    rw [ProbMaskAllL, List.length_map, List.length_range, lenLoop_eq_popcount]
  refine ⟨hlen, ?_, ?_, ?_, ?_⟩
  · intro lcv hlcv
    have hl : lcv < (ProbMaskAllL n w mask s).length := by rw [hlen]; exact hlcv
    rw [List.getD_eq_getElem _ _ hl]
    simp only [ProbMaskAllL, List.getElem_map, List.getElem_range]
  · intro x hx
    rw [Set.mem_setOf_eq] at hx
    rw [Set.mem_setOf_eq, expandPerm_eq_scatter mask w x hw hx]
    exact scatter_land_self mask x
  · intro x1 h1 x2 h2 heq
    rw [Set.mem_setOf_eq] at h1 h2
    rw [expandPerm_eq_scatter mask w x1 hw h1,
      expandPerm_eq_scatter mask w x2 hw h2] at heq
    have := congrArg (gather mask) heq
    rwa [gather_scatter mask x1 h1, gather_scatter mask x2 h2] at this
  · intro y hy
    rw [Set.mem_setOf_eq] at hy
    refine ⟨gather mask y, ?_, ?_⟩
    · rw [Set.mem_setOf_eq]
      exact gather_lt mask y
    · rw [expandPerm_eq_scatter mask w (gather mask y) hw (gather_lt mask y)]
      exact scatter_gather mask y hy

/-- Witness for `probMaskAll_fills_bijection` at concrete inputs. -/
theorem probMaskAll_fills_bijection_witness :
    (5 : Nat) < 2 ^ 3 ∧
    (ProbMaskAllL 3 3 5 (fun _ => (1, 0))).length = 2 ^ popcount 5 :=
  ⟨by norm_num, (probMaskAll_fills_bijection 3 3 5 (fun _ => (1, 0))
    (by norm_num)).1⟩

/-! ## The sorted `qPowers` array is the ascending power list of the mask -/

theorem shiftRight_one_lt {v : Nat} (h : v ≠ 0) : v >>> 1 < v := by
  rw [Nat.shiftRight_one]
  exact Nat.div_lt_self (Nat.pos_of_ne_zero h) one_lt_two

theorem maskPowersAsc_pos (mask : Nat) : ∀ p ∈ maskPowersAsc mask, 0 < p := by
  induction mask using Nat.strong_induction_on with
  | _ mask ih =>
    intro p hp
    by_cases h0 : mask = 0
    · subst h0
      rw [maskPowersAsc_zero] at hp
      exact absurd hp (List.not_mem_nil p)
    · have hb : mask &&& 1 < 2 := land_one_lt_two mask
      interval_cases hpar : mask &&& 1
      · rw [maskPowersAsc_even h0 hpar] at hp
        obtain ⟨q, hq, hqe⟩ := List.mem_map.mp hp
        have := ih (mask >>> 1) (shiftRight_one_lt h0) q hq
        omega
      · rw [maskPowersAsc_odd h0 hpar] at hp
        rcases List.mem_cons.mp hp with h1 | h1
        · omega
        · obtain ⟨q, hq, hqe⟩ := List.mem_map.mp h1
          have := ih (mask >>> 1) (shiftRight_one_lt h0) q hq
          omega

theorem maskPowersAsc_sorted (mask : Nat) :
    List.Sorted (· < ·) (maskPowersAsc mask) := by
  induction mask using Nat.strong_induction_on with
  | _ mask ih =>
    by_cases h0 : mask = 0
    · subst h0
      rw [maskPowersAsc_zero]
      exact List.sorted_nil
    · have hb : mask &&& 1 < 2 := land_one_lt_two mask
      have htail : List.Sorted (· < ·)
          ((maskPowersAsc (mask >>> 1)).map (fun p => 2 * p)) := by
        rw [List.Sorted, List.pairwise_map]
        exact (ih (mask >>> 1) (shiftRight_one_lt h0)).imp (fun h => by omega)
      interval_cases hpar : mask &&& 1
      · rw [maskPowersAsc_even h0 hpar]
        exact htail
      · rw [maskPowersAsc_odd h0 hpar, List.sorted_cons]
        refine ⟨?_, htail⟩
        intro b hbm
        obtain ⟨q, hq, hqe⟩ := List.mem_map.mp hbm
        have := maskPowersAsc_pos (mask >>> 1) q hq
        omega

theorem maskPowersAsc_mem (mask : Nat) : ∀ p,
    p ∈ maskPowersAsc mask ↔ ∃ j, p = 2 ^ j ∧ mask.testBit j = true := by
  induction mask using Nat.strong_induction_on with
  | _ mask ih =>
    intro p
    by_cases h0 : mask = 0
    · subst h0
      rw [maskPowersAsc_zero]
      simp [Nat.zero_testBit]
    · have hb : mask &&& 1 < 2 := land_one_lt_two mask
      have hdec : 2 * (mask >>> 1) + (mask &&& 1) = mask := two_mul_shiftRight_add mask
      generalize hm'eq : mask >>> 1 = m' at hdec
      have hm'lt : m' < mask := by omega
      have ihm := ih m' hm'lt
      interval_cases hpar : mask &&& 1
      · rw [maskPowersAsc_even h0 hpar, hm'eq]
        constructor
        · intro hp
          obtain ⟨q, hq, hqe⟩ := List.mem_map.mp hp
          obtain ⟨j, hj1, hj2⟩ := (ihm q).mp hq
          refine ⟨j + 1, ?_, ?_⟩
          · rw [← hqe, hj1, pow_succ]; ring
          · rw [show mask = 2 * m' + 0 by omega,
              testBit_succ_two_mul_add (by omega : (0:Nat) < 2)]
            exact hj2
        · rintro ⟨j, hj1, hj2⟩
          cases j with
          | zero =>
            rw [show mask = 2 * m' + 0 by omega,
              testBit_zero_two_mul_add (by omega : (0:Nat) < 2)] at hj2
            exact absurd hj2 (by decide)
          | succ j =>
            rw [show mask = 2 * m' + 0 by omega,
              testBit_succ_two_mul_add (by omega : (0:Nat) < 2)] at hj2
            refine List.mem_map.mpr ⟨2 ^ j, (ihm (2 ^ j)).mpr ⟨j, rfl, hj2⟩, ?_⟩
            rw [hj1, pow_succ]; ring
      · rw [maskPowersAsc_odd h0 hpar, hm'eq]
        constructor
        · intro hp
          rcases List.mem_cons.mp hp with h1 | h1
          · refine ⟨0, by rw [h1]; rfl, ?_⟩
            rw [show mask = 2 * m' + 1 by omega,
              testBit_zero_two_mul_add (by omega : (1:Nat) < 2)]
            decide
          · obtain ⟨q, hq, hqe⟩ := List.mem_map.mp h1
            obtain ⟨j, hj1, hj2⟩ := (ihm q).mp hq
            refine ⟨j + 1, ?_, ?_⟩
            · rw [← hqe, hj1, pow_succ]; ring
            · rw [show mask = 2 * m' + 1 by omega,
                testBit_succ_two_mul_add (by omega : (1:Nat) < 2)]
              exact hj2
        · rintro ⟨j, hj1, hj2⟩
          cases j with
          | zero =>
            rw [pow_zero] at hj1
            exact List.mem_cons.mpr (Or.inl hj1)
          | succ j =>
            rw [show mask = 2 * m' + 1 by omega,
              testBit_succ_two_mul_add (by omega : (1:Nat) < 2)] at hj2
            refine List.mem_cons.mpr (Or.inr (List.mem_map.mpr
              ⟨2 ^ j, (ihm (2 ^ j)).mpr ⟨j, rfl, hj2⟩, ?_⟩))
            rw [hj1, pow_succ]; ring

theorem maskPowersAsc_length (mask : Nat) :
    (maskPowersAsc mask).length = popcount mask := by
  induction mask using Nat.strong_induction_on with
  | _ mask ih =>
    by_cases h0 : mask = 0
    · subst h0
      rw [maskPowersAsc_zero, popcount_zero]
      rfl
    · have hb : mask &&& 1 < 2 := land_one_lt_two mask
      have hdec : 2 * (mask >>> 1) + (mask &&& 1) = mask := two_mul_shiftRight_add mask
      generalize hm'eq : mask >>> 1 = m' at hdec
      interval_cases hpar : mask &&& 1
      · rw [maskPowersAsc_even h0 hpar, hm'eq, List.length_map,
          ih m' (by omega), show mask = 2 * m' by omega, popcount_double]
      · rw [maskPowersAsc_odd h0 hpar, hm'eq, List.length_cons, List.length_map,
          ih m' (by omega), show mask = 2 * m' + 1 by omega, popcount_double_add_one]

/-- Strictly sorted lists with the same members are equal. -/
theorem sorted_lt_eq_ext (l1 : List Nat) : ∀ (l2 : List Nat),
    List.Sorted (· < ·) l1 → List.Sorted (· < ·) l2 →
    (∀ a, a ∈ l1 ↔ a ∈ l2) → l1 = l2 := by
  induction l1 with
  | nil =>
    intro l2 _ _ hm
    cases l2 with
    | nil => rfl
    | cons b t2 =>
      exact absurd ((hm b).mpr (List.mem_cons_self b t2)) (List.not_mem_nil b)
  | cons a t1 ih =>
    intro l2 h1 h2 hm
    cases l2 with
    | nil =>
      exact absurd ((hm a).mp (List.mem_cons_self a t1)) (List.not_mem_nil a)
    | cons b t2 =>
      obtain ⟨h1a, h1s⟩ := List.sorted_cons.mp h1
      obtain ⟨h2a, h2s⟩ := List.sorted_cons.mp h2
      have hab : a = b := by
        have ha2 := (hm a).mp (List.mem_cons_self a t1)
        have hb1 := (hm b).mpr (List.mem_cons_self b t2)
        rcases List.mem_cons.mp ha2 with h | h
        · exact h
        · have hba : b < a := h2a a h
          rcases List.mem_cons.mp hb1 with h' | h'
          · omega
          · have : a < b := h1a b h'
            omega
      subst hab
      have htail : ∀ c, c ∈ t1 ↔ c ∈ t2 := by
        intro c
        constructor
        · intro hc
          rcases List.mem_cons.mp ((hm c).mp (List.mem_cons_of_mem a hc)) with h | h
          · have := h1a c hc
            omega
          · exact h
        · intro hc
          rcases List.mem_cons.mp ((hm c).mpr (List.mem_cons_of_mem a hc)) with h | h
          · have := h2a c hc
            omega
          · exact h
      rw [ih t2 h1s h2s htail]

theorem testBit_foldl_or (l : List Nat) : ∀ (acc j : Nat),
    (l.foldl (fun acc p => acc ||| p) acc).testBit j =
      (acc.testBit j || l.any (fun p => p.testBit j)) := by
  induction l with
  | nil => intro acc j; simp
  | cons p ps ih =>
    intro acc j
    rw [List.foldl_cons, ih, Nat.testBit_or, List.any_cons, ← Bool.or_assoc]

theorem testBit_orList (l : List Nat) (j : Nat) :
    (orList l).testBit j = l.any (fun p => p.testBit j) := by
  rw [orList, testBit_foldl_or, Nat.zero_testBit, Bool.false_or]

theorem foldl_or_lt_two_pow (w : Nat) : ∀ (l : List Nat) (acc : Nat), acc < 2 ^ w →
    (∀ p ∈ l, p < 2 ^ w) → l.foldl (fun acc p => acc ||| p) acc < 2 ^ w := by
  intro l
  induction l with
  | nil => intro acc ha _; exact ha
  | cons p ps ih =>
    intro acc ha hl
    rw [List.foldl_cons]
    exact ih (acc ||| p)
      (Nat.or_lt_two_pow ha (hl p (List.mem_cons_self p ps)))
      (fun q hq => hl q (List.mem_cons_of_mem p hq))

theorem sorted_le_nodup_sorted_lt {l : List Nat} (hs : List.Sorted (· ≤ ·) l)
    (hn : l.Nodup) : List.Sorted (· < ·) l := by
  rw [List.Sorted]
  exact (hs.and hn).imp (fun h => lt_of_le_of_ne h.1 h.2)

theorem shiftLeft_one_injective : Function.Injective (fun b : Nat => 1 <<< b) := by
  intro x y h
  simp only [one_shiftLeft_eq] at h
  exact Nat.pow_right_injective (le_refl 2) h

/-- For duplicate-free qubit lists, the sorted `qPowers` array is exactly the
ascending set-bit power list of the accumulated register mask. -/
theorem qPowersSortedOf_eq_maskPowersAsc (bits : List Nat) (hnd : bits.Nodup) :
    qPowersSortedOf bits = maskPowersAsc (regMaskOf bits) := by
  have hperm := List.perm_insertionSort (· ≤ ·) (bits.map (fun b => 1 <<< b))
  apply sorted_lt_eq_ext
  · exact sorted_le_nodup_sorted_lt
      (List.sorted_insertionSort (· ≤ ·) (bits.map (fun b => 1 <<< b)))
      (hperm.nodup_iff.mpr (hnd.map shiftLeft_one_injective))
  · exact maskPowersAsc_sorted (regMaskOf bits)
  · intro x
    rw [qPowersSortedOf] at *
    rw [hperm.mem_iff, maskPowersAsc_mem, List.mem_map]
    constructor
    · rintro ⟨b, hbmem, hbe⟩
      refine ⟨b, ?_, ?_⟩
      · rw [← hbe, one_shiftLeft_eq]
      · rw [regMaskOf, testBit_orList]
        refine List.any_eq_true.mpr ⟨1 <<< b, List.mem_map.mpr ⟨b, hbmem, rfl⟩, ?_⟩
        rw [one_shiftLeft_eq, Nat.testBit_two_pow]
        simp
    · rintro ⟨j, hj1, hj2⟩
      rw [regMaskOf, testBit_orList] at hj2
      obtain ⟨q, hqmem, hqbit⟩ := List.any_eq_true.mp hj2
      obtain ⟨b, hbmem, hbe⟩ := List.mem_map.mp hqmem
      rw [← hbe, one_shiftLeft_eq, Nat.testBit_two_pow] at hqbit
      have hbj : b = j := by simpa using hqbit
      refine ⟨b, hbmem, ?_⟩
      rw [one_shiftLeft_eq, hj1, hbj]

theorem winnerExpand_nil (r p : Nat) : winnerExpand [] r p = 0 := rfl

theorem winnerExpand_cons (q : Nat) (qs : List Nat) (r p : Nat) :
    winnerExpand (q :: qs) r p =
      (if (1 <<< p) &&& r ≠ 0 then q else 0) ||| winnerExpand qs r (p + 1) := rfl

theorem land_two_pow (p r : Nat) :
    2 ^ p &&& r = if r.testBit p then 2 ^ p else 0 := by
  by_cases h : r.testBit p
  · rw [if_pos h]
    apply Nat.eq_of_testBit_eq
    intro j
    rw [Nat.testBit_and, Nat.testBit_two_pow]
    by_cases hjp : p = j
    · subst hjp
      simp [h]
    · simp [hjp]
  · rw [if_neg h]
    apply Nat.eq_of_testBit_eq
    intro j
    rw [Nat.testBit_and, Nat.testBit_two_pow, Nat.zero_testBit]
    by_cases hjp : p = j
    · subst hjp
      simp [h]
    · simp [hjp]

/-- The winner re-expansion loop deposits the bits of `result` (from position
`p` upward) into the successive elements of the power list. -/
theorem winnerExpand_eq_scatterL (qs : List Nat) : ∀ (r p : Nat),
    winnerExpand qs r p = scatterL qs (r >>> p) := by
  induction qs with
  | nil => intro r p; rfl
  | cons q qs ih =>
    intro r p
    rw [winnerExpand_cons, scatterL_cons, ih r (p + 1)]
    have hc : ((1 <<< p) &&& r ≠ 0) ↔ ((r >>> p) &&& 1 = 1) := by
      rw [one_shiftLeft_eq, land_two_pow, Nat.and_one_is_mod,
        Nat.testBit_to_div_mod, Nat.shiftRight_eq_div_pow]
      have h2 : (2 : ℕ) ^ p ≠ 0 := by positivity
      by_cases h : r / 2 ^ p % 2 = 1
      · simp [h, h2]
      · simp [h]
    have ht : r >>> (p + 1) = (r >>> p) >>> 1 := by
      rw [Nat.shiftRight_eq_div_pow, Nat.shiftRight_eq_div_pow,
        Nat.shiftRight_eq_div_pow, pow_succ, Nat.div_div_eq_div_mul, pow_one]
    rw [ht]
    congr 1
    by_cases h : (1 <<< p) &&& r ≠ 0
    · rw [if_pos h, if_pos (hc.mp h)]
    · rw [if_neg h, if_neg (fun hh => h (hc.mpr hh))]

/-- C5: in the unforced multi-qubit `ForceM`, the winner re-expansion loop maps
the `p`-th bit of the winning enumeration index to the `p`-th smallest bit
power of the selected qubits (the ascending-sorted `qPowers` array, which is
exactly the ascending set-bit power list of the register mask), and this
sorted-order mapping coincides with the pattern enumeration order of
`ProbMaskAll` on the whole enumeration range. -/
theorem forceM_winner_matches_enumeration (n : Nat) (bits : List Nat)
    (hnd : bits.Nodup) (hb : ∀ b ∈ bits, b < n) :
    (∀ r, winnerExpand (qPowersSortedOf bits) r 0 =
      scatterL (qPowersSortedOf bits) r) ∧
    qPowersSortedOf bits = maskPowersAsc (regMaskOf bits) ∧
    (∀ lcv, lcv < 2 ^ bits.length →
      winnerExpand (qPowersSortedOf bits) lcv 0 =
        expandPerm n (regMaskOf bits) lcv) := by
  have h7 := qPowersSortedOf_eq_maskPowersAsc bits hnd
  have hmask : regMaskOf bits < 2 ^ n := by
    rw [regMaskOf, orList]
    apply foldl_or_lt_two_pow
    · exact Nat.pos_pow_of_pos n (by omega)
    · intro p hp
      obtain ⟨b, hbmem, hbe⟩ := List.mem_map.mp hp
      rw [← hbe, one_shiftLeft_eq]
      exact Nat.pow_lt_pow_right (by omega) (hb b hbmem)
  have hpc : popcount (regMaskOf bits) = bits.length := by
    rw [← maskPowersAsc_length, ← h7, qPowersSortedOf, List.length_insertionSort,
      List.length_map]
  refine ⟨?_, h7, ?_⟩
  · intro r
    rw [winnerExpand_eq_scatterL, Nat.shiftRight_zero]
  · intro lcv hlcv
    rw [winnerExpand_eq_scatterL, Nat.shiftRight_zero, h7, ← scatter,
      expandPerm_eq_scatter (regMaskOf bits) n lcv hmask (by rw [hpc]; exact hlcv)]

/-- Witness for `forceM_winner_matches_enumeration` at concrete inputs. -/
theorem forceM_winner_matches_enumeration_witness :
    List.Nodup [1, 0] ∧ (∀ b ∈ [1, 0], b < 2) ∧
    qPowersSortedOf [1, 0] = maskPowersAsc (regMaskOf [1, 0]) :=
  ⟨by decide, by decide,
    (forceM_winner_matches_enumeration 2 [1, 0] (by decide) (by decide)).2.1⟩

end Qrack
